import Mathlib

/-!
# paramshare: the synchronisation protocol of `main.go`

A shallow embedding of the send and receive commands of `main.go` and the
properties of their request loops.

* Go strings are byte sequences (`GoString`), `int64` values are integers.
* The directory `/var/tmp/filecoin-proof-parameters/` is a finite map from
  file names to file contents (`Dir`).
* A network stream is the list of bytes it will still deliver before it
  ends; what a side writes is recorded in its state.
* The library calls of the two commands (`encoding/json`, `unicode/utf8`,
  `strconv`, `io.CopyN`, `os.Create`, `os.Open`) are modelled as far as the
  commands use them.
-/

namespace Paramshare

/-! ## Data model -/

/-- One byte. -/
abbrev Byte := Fin 256

/-- A Go `string`: an immutable sequence of bytes, not necessarily UTF-8. -/
abbrev GoString := List Byte

/-- The bytes of an ASCII literal (used to write examples). -/
def ascii (s : String) : GoString := s.data.map (fun c => Fin.ofNat c.toNat)

/-- The struct `FileInfo` of `main.go`; `Size` is an `int64`. -/
structure FileInfo where
  Name : GoString
  Size : Int
  Hash : GoString
deriving DecidableEq, Repr

/-- The zero value `FileInfo{}`. -/
def FileInfo.empty : FileInfo := ⟨[], 0, []⟩

/-- The errors the two commands return. -/
inductive Err
  /-- `dec.Decode` failed: the stream ended or the message was malformed. -/
  | decode
  /-- The sender's "requested file was not in our set of files". -/
  | notInSet
  /-- The sender's "failed to copy correct number of bytes". -/
  | wrongCount
  /-- `os.Open` failed. -/
  | openFailed
  /-- `os.Create` failed. -/
  | createFailed
  /-- `io.CopyN` reached the end of the stream early (`io.EOF`). -/
  | eof
deriving DecidableEq, Repr

deriving instance DecidableEq for Except

/-! ## Local storage -/

/-- The content of the working directory, taken as a flat directory of regular
files: file name and file content, the first entry for a name being the
file. Every non-empty name is the name of a file that is there or can be
created. -/
abbrev Dir := List (GoString × List Byte)

/-- Content of the file `name` of the directory, if there is one. -/
def Dir.read (d : Dir) (name : GoString) : Option (List Byte) :=
  (d.find? (fun e => e.1 = name)).map (fun e => e.2)

/-- The directory with the file `name` holding `content`. -/
def Dir.write (d : Dir) (name : GoString) (content : List Byte) : Dir :=
  (name, content) :: d.filter (fun e => e.1 ≠ name)

/-- The call `os.Create(filepath.Join(dir, name))`: the file is created or
truncated. For the empty name `filepath.Join` returns the directory itself,
which cannot be opened for writing. -/
def osCreate (d : Dir) (name : GoString) : Except Err Dir :=
  if name = [] then .error .createFailed else .ok (d.write name [])

/-- The call `os.Open(filepath.Join(dir, name))` followed by reading the file to
its end. -/
def osOpen (d : Dir) (name : GoString) : Except Err (List Byte) :=
  match d.read name with
  | none => .error .openFailed
  | some content => .ok content

/-! ## Receiver (`recvCmd`) -/

/-- The value of `found` after the inner loop of `recvCmd` over the local
`files`, for the offered descriptor `a`: the first local file with the name of
`a` ends the loop, and sets `found` only when its hash is the hash of `a`. -/
def found : List FileInfo → FileInfo → Bool
  | [], _ => false
  | f :: files, a =>
    if f.Name = a.Name then
      if f.Hash ≠ a.Hash then false else true
    else found files a

/-- Whether the inner loop of `recvCmd` prints "sender has file ... with
different hash" for the offered descriptor `a`. -/
def hashWarned : List FileInfo → FileInfo → Bool
  | [], _ => false
  | f :: files, a =>
    if f.Name = a.Name then
      if f.Hash ≠ a.Hash then true else false
    else hashWarned files a

/-- State of a run of the receiver. -/
structure Recv where
  /-- The receiver's directory. -/
  dir : Dir
  /-- The bytes the stream will still deliver; after them the stream ends. -/
  incoming : List Byte
  /-- The values given to `enc.Encode` so far, oldest first. -/
  sent : List FileInfo
deriving DecidableEq, Repr

/-- The call `io.CopyN(dst, src, n)` on a stream that will deliver `src`: the
bytes written to `dst`, the bytes left in the stream, and the error. The
limited reader yields at most `n` bytes (none for `n ≤ 0`); the error is
`io.EOF` exactly when fewer than `n` bytes were written. -/
def ioCopyN (src : List Byte) (n : Int) : List Byte × List Byte × Option Err :=
  let data := src.take n.toNat
  let rest := src.drop n.toNat
  if (data.length : Int) = n then (data, rest, none)
  else if (data.length : Int) < n then (data, rest, some .eof)
  else (data, rest, none)

/-- The transfer of `recvCmd` into the file created for `a`:
`io.CopyN(fi, s, a.Size)` and its error check. The bytes copied before an
error stay in the file. -/
def transfer (w : Recv) (a : FileInfo) : Recv × Option Err :=
  let r := ioCopyN w.incoming a.Size
  ({ w with dir := w.dir.write a.Name r.1, incoming := r.2.1 }, r.2.2)

/-- The part of the body of the outer loop of `recvCmd` after the request was
written: `os.Create` and the transfer. -/
def fetch (w : Recv) (a : FileInfo) : Recv × Option Err :=
  match osCreate w.dir a.Name with
  | .error e => (w, some e)
  | .ok d => transfer { w with dir := d } a

/-- One iteration of the outer loop of `recvCmd`, for the offered descriptor
`a`. -/
def recvOne (files : List FileInfo) (w : Recv) (a : FileInfo) : Recv × Option Err :=
  if found files a then (w, none)
  else fetch { w with sent := w.sent ++ [a] } a

/-- The outer loop of `recvCmd` over the decoded manifest `available`; it
returns at the first error. -/
def recvLoop (files : List FileInfo) : List FileInfo → Recv → Recv × Option Err
  | [], w => (w, none)
  | a :: available, w =>
    match recvOne files w a with
    | (w1, none) => recvLoop files available w1
    | (w1, some e) => (w1, some e)

/-- The command `recvCmd` from the decoded manifest on: the loop, then
`enc.Encode(FileInfo{})`. -/
def recvCmd (files available : List FileInfo) (w : Recv) : Recv × Option Err :=
  match recvLoop files available w with
  | (w1, none) => ({ w1 with sent := w1.sent ++ [FileInfo.empty] }, none)
  | (w1, some e) => (w1, some e)

/-! ## Sender (`sendCmd`), one decoded request -/

/-- The value of `found` after the lookup loop of `sendCmd`: some entry of
`files` equals the request. -/
def inSet : List FileInfo → FileInfo → Bool
  | [], _ => false
  | f :: files, req => if f = req then true else inSet files req

/-- How the body of the request loop of `sendCmd` ends for one decoded
request, with the bytes it wrote to the stream. -/
inductive Step
  /-- The handler returns `nil`: "done!". -/
  | done
  /-- The body finished and the loop decodes the next request. -/
  | next (written : List Byte)
  /-- The handler returns an error. -/
  | fail (written : List Byte) (e : Err)
deriving DecidableEq, Repr

/-- The part of the loop body of `sendCmd` after the lookup: open the file,
copy all of it to the stream, compare the count with `req.Size`. -/
def serve (d : Dir) (req : FileInfo) : Step :=
  match osOpen d req.Name with
  | .error e => .fail [] e
  | .ok content =>
    if (content.length : Int) ≠ req.Size then .fail content .wrongCount
    else .next content

/-- The body of the request loop of `sendCmd` for the decoded request `req`. -/
def sendOne (files : List FileInfo) (d : Dir) (req : FileInfo) : Step :=
  if req.Name = [] then .done
  else if !inSet files req then .fail [] .notInSet
  else serve d req

/-! ## UTF-8 (package `unicode/utf8`) -/

/-- The rune `utf8.RuneError`, U+FFFD. -/
def runeError : Nat := 0xFFFD

/-- A continuation byte, `0x80..0xBF`. -/
def isCont (b : Byte) : Bool := 0x80 ≤ b.val && b.val ≤ 0xBF

/-- The first two bytes of a well-formed two-byte sequence. -/
def okLead2 (b0 : Byte) : Bool := 0xC2 ≤ b0.val && b0.val ≤ 0xDF

/-- The first two bytes of a well-formed three-byte sequence (the accept
ranges of `utf8.first`: no overlong form, no surrogate). -/
def okLead3 (b0 b1 : Byte) : Bool :=
  (b0.val = 0xE0 && 0xA0 ≤ b1.val && b1.val ≤ 0xBF) ||
  (0xE1 ≤ b0.val && b0.val ≤ 0xEC && isCont b1) ||
  (b0.val = 0xED && 0x80 ≤ b1.val && b1.val ≤ 0x9F) ||
  (0xEE ≤ b0.val && b0.val ≤ 0xEF && isCont b1)

/-- The first two bytes of a well-formed four-byte sequence (no overlong form,
nothing above U+10FFFF). -/
def okLead4 (b0 b1 : Byte) : Bool :=
  (b0.val = 0xF0 && 0x90 ≤ b1.val && b1.val ≤ 0xBF) ||
  (0xF1 ≤ b0.val && b0.val ≤ 0xF3 && isCont b1) ||
  (b0.val = 0xF4 && 0x80 ≤ b1.val && b1.val ≤ 0x8F)

/-- The function `utf8.DecodeRune` (and `DecodeRuneInString`): the rune at the
head of the bytes and its width; `(RuneError, 1)` for an ill-formed sequence,
`(RuneError, 0)` for no bytes. -/
def decodeRune : List Byte → Nat × Nat
  | [] => (runeError, 0)
  | b0 :: rest =>
    if b0.val < 0x80 then (b0.val, 1)
    else
      match rest with
      | [] => (runeError, 1)
      | b1 :: rest1 =>
        if okLead2 b0 && isCont b1 then ((b0.val - 0xC0) * 64 + (b1.val - 0x80), 2)
        else
          match rest1 with
          | [] => (runeError, 1)
          | b2 :: rest2 =>
            if okLead3 b0 b1 && isCont b2 then
              ((b0.val - 0xE0) * 4096 + (b1.val - 0x80) * 64 + (b2.val - 0x80), 3)
            else
              match rest2 with
              | [] => (runeError, 1)
              | b3 :: _ =>
                if okLead4 b0 b1 && isCont b2 && isCont b3 then
                  ((b0.val - 0xF0) * 262144 + (b1.val - 0x80) * 4096 +
                    (b2.val - 0x80) * 64 + (b3.val - 0x80), 4)
                else (runeError, 1)

/-- The function `utf8.AppendRune`: the UTF-8 encoding of a rune, that of
`RuneError` for a surrogate or a value above U+10FFFF. -/
def encodeRune (r : Nat) : List Byte :=
  if r < 0x80 then [Fin.ofNat r]
  else if r < 0x800 then [Fin.ofNat (0xC0 + r / 64), Fin.ofNat (0x80 + r % 64)]
  else if (0xD800 ≤ r ∧ r ≤ 0xDFFF) ∨ 0x10FFFF < r then [0xEF, 0xBF, 0xBD]
  else if r < 0x10000 then
    [Fin.ofNat (0xE0 + r / 4096), Fin.ofNat (0x80 + r / 64 % 64), Fin.ofNat (0x80 + r % 64)]
  else
    [Fin.ofNat (0xF0 + r / 262144), Fin.ofNat (0x80 + r / 4096 % 64),
      Fin.ofNat (0x80 + r / 64 % 64), Fin.ofNat (0x80 + r % 64)]

/-- The function `utf8.ValidString`, with `fuel` bounding the number of
runes. -/
def utf8ValidAux : Nat → List Byte → Bool
  | 0, s => s.isEmpty
  | _ + 1, [] => true
  | fuel + 1, b :: rest =>
    let r := decodeRune (b :: rest)
    if r.1 = runeError ∧ r.2 = 1 then false
    else utf8ValidAux fuel (rest.drop (r.2 - 1))

/-- The function `utf8.ValidString`. -/
def utf8Valid (s : GoString) : Bool := utf8ValidAux s.length s

/-! ## JSON encoding (package `encoding/json`) -/

/-- The digit of `n < 16` in the table `hex = "0123456789abcdef"`. -/
def hexDigit (n : Nat) : Byte := if n < 10 then Fin.ofNat (48 + n) else Fin.ofNat (87 + n)

/-- The table `htmlSafeSet`: the ASCII bytes written to a JSON string as they
are, all from space on but the quote, the backslash, `<`, `>` and `&`. -/
def htmlSafe (b : Byte) : Bool :=
  0x20 ≤ b.val && b.val < 0x80 && b.val ≠ 0x22 && b.val ≠ 0x26 && b.val ≠ 0x3C &&
    b.val ≠ 0x3E && b.val ≠ 0x5C

/-- The escape written for an ASCII byte that is not in `htmlSafeSet` (older
releases write backspace and form feed in the `\u00XX` form, which is read
back alike). -/
def escapeByte (b : Byte) : List Byte :=
  if b.val = 0x5C ∨ b.val = 0x22 then [0x5C, b]
  else if b.val = 0x08 then [0x5C, 0x62]
  else if b.val = 0x0C then [0x5C, 0x66]
  else if b.val = 0x0A then [0x5C, 0x6E]
  else if b.val = 0x0D then [0x5C, 0x72]
  else if b.val = 0x09 then [0x5C, 0x74]
  else [0x5C, 0x75, 0x30, 0x30, hexDigit (b.val / 16), hexDigit (b.val % 16)]

/-- The loop of `appendString` with HTML escaping on, from index `i` on (`src`
is the string from `i` on); `fuel` bounds the number of iterations. -/
def appendStringAux : Nat → List Byte → List Byte
  | 0, _ => []
  | _ + 1, [] => []
  | fuel + 1, b :: rest =>
    if b.val < 0x80 then
      (if htmlSafe b then [b] else escapeByte b) ++ appendStringAux fuel rest
    else
      let r := decodeRune (b :: rest)
      if r.1 = runeError ∧ r.2 = 1 then
        [0x5C, 0x75, 0x66, 0x66, 0x66, 0x64] ++ appendStringAux fuel rest
      else if r.1 = 0x2028 ∨ r.1 = 0x2029 then
        [0x5C, 0x75, 0x32, 0x30, 0x32, hexDigit (r.1 % 16)] ++
          appendStringAux fuel (rest.drop (r.2 - 1))
      else (b :: rest).take r.2 ++ appendStringAux fuel (rest.drop (r.2 - 1))

/-- The function `appendString` of `encoding/json` with HTML escaping on: the
JSON string literal written for a Go string. -/
def appendString (src : GoString) : List Byte :=
  0x22 :: (appendStringAux src.length src ++ [0x22])

/-- The decimal digits of a natural number, most significant first; `fuel`
bounds the number of digits. -/
def decimalAux : Nat → Nat → List Byte
  | 0, _ => []
  | fuel + 1, n =>
    if n < 10 then [Fin.ofNat (48 + n)]
    else decimalAux fuel (n / 10) ++ [Fin.ofNat (48 + n % 10)]

/-- The function `strconv.AppendInt(_, n, 10)`. -/
def appendInt (n : Int) : List Byte :=
  if n < 0 then 0x2D :: decimalAux (n.natAbs + 1) n.natAbs
  else decimalAux (n.natAbs + 1) n.natAbs

/-- The JSON object written for a `FileInfo`:
`{"Name":...,"Size":...,"Hash":...}`. -/
def encodeFileInfo (f : FileInfo) : List Byte :=
  ascii "\x7b\"Name\":" ++ appendString f.Name ++ ascii ",\"Size\":" ++ appendInt f.Size ++
    ascii ",\"Hash\":" ++ appendString f.Hash ++ ascii "\x7d"

/-- The objects of a non-empty slice, separated by commas. -/
def encodeElems : List FileInfo → List Byte
  | [] => []
  | [f] => encodeFileInfo f
  | f :: g :: files => encodeFileInfo f ++ 0x2C :: encodeElems (g :: files)

/-- The call `json.Marshal(files)` of `sendCmd`. The slice built by
`computeFileList` is `nil` when it is empty, which is written `null`. -/
def jsonMarshal (files : List FileInfo) : List Byte :=
  match files with
  | [] => ascii "null"
  | _ => 0x5B :: (encodeElems files ++ [0x5D])

/-- The bytes the call `enc.Encode(v)` of `recvCmd` writes: the object and a
newline. -/
def encEncode (f : FileInfo) : List Byte := encodeFileInfo f ++ [0x0A]

/-! ## JSON decoding (package `encoding/json`)

The decoder is modelled on the JSON texts the encoder above produces, with JSON
white space allowed between the tokens: an object with the members `Name`,
`Size`, `Hash` in this order, and an array of such objects or `null`. Every
other input is a decode error here (`encoding/json` accepts some of them, such
as unknown members or another order of the members). -/

/-- JSON white space: space, tab, carriage return, newline. -/
def isSpace (b : Byte) : Bool := b.val = 0x20 || b.val = 0x09 || b.val = 0x0D || b.val = 0x0A

/-- The input after its leading white space. -/
def skipSpace : List Byte → List Byte
  | [] => []
  | b :: rest => if isSpace b then skipSpace rest else b :: rest

/-- The value of a hexadecimal digit. -/
def hexVal (b : Byte) : Option Nat :=
  if 0x30 ≤ b.val ∧ b.val ≤ 0x39 then some (b.val - 0x30)
  else if 0x61 ≤ b.val ∧ b.val ≤ 0x66 then some (b.val - 0x61 + 10)
  else if 0x41 ≤ b.val ∧ b.val ≤ 0x46 then some (b.val - 0x41 + 10)
  else none

/-- The function `getu4` on the bytes after `\u`: the value of four
hexadecimal digits. -/
def getu4 : List Byte → Option Nat
  | a :: b :: c :: d :: _ =>
    match hexVal a, hexVal b, hexVal c, hexVal d with
    | some x, some y, some z, some w => some (x * 4096 + y * 256 + z * 16 + w)
    | _, _, _, _ => none
  | _ => none

/-- The byte a one-letter escape stands for. -/
def unescape (e : Byte) : Option Byte :=
  if e.val = 0x22 ∨ e.val = 0x5C ∨ e.val = 0x2F then some e
  else if e.val = 0x62 then some 0x08
  else if e.val = 0x66 then some 0x0C
  else if e.val = 0x6E then some 0x0A
  else if e.val = 0x72 then some 0x0D
  else if e.val = 0x74 then some 0x09
  else none

/-- The result of a read with `out` put in front of the value read. -/
def emit (out : List Byte) (r : Option (GoString × List Byte)) : Option (GoString × List Byte) :=
  r.map (fun p => (out ++ p.1, p.2))

/-- The string literal at the head of the input, after its opening quote:
the scanner's string states and `unquote` in one pass. Returns the Go string
and the input after the closing quote; `fuel` bounds the number of steps. -/
def unquoteAux : Nat → List Byte → Option (GoString × List Byte)
  | 0, _ => none
  | _ + 1, [] => none
  | fuel + 1, c :: rest =>
    if c.val = 0x22 then some ([], rest)
    else if c.val = 0x5C then
      match rest with
      | [] => none
      | e :: rest1 =>
        if e.val = 0x75 then
          match getu4 rest1 with
          | none => none
          | some rr =>
            if 0xD800 ≤ rr ∧ rr ≤ 0xDFFF then
              match rest1.drop 4 with
              | b :: u :: rest2 =>
                match (if b.val = 0x5C ∧ u.val = 0x75 then getu4 rest2 else none) with
                | some rr1 =>
                  if rr < 0xDC00 ∧ 0xDC00 ≤ rr1 ∧ rr1 ≤ 0xDFFF then
                    emit (encodeRune (0x10000 + (rr - 0xD800) * 1024 + (rr1 - 0xDC00)))
                      (unquoteAux fuel (rest2.drop 4))
                  else emit (encodeRune runeError) (unquoteAux fuel (rest1.drop 4))
                | none => emit (encodeRune runeError) (unquoteAux fuel (rest1.drop 4))
              | _ => emit (encodeRune runeError) (unquoteAux fuel (rest1.drop 4))
            else emit (encodeRune rr) (unquoteAux fuel (rest1.drop 4))
        else
          match unescape e with
          | none => none
          | some b => emit [b] (unquoteAux fuel rest1)
    else if c.val < 0x20 then none
    else if c.val < 0x80 then emit [c] (unquoteAux fuel rest)
    else
      let r := decodeRune (c :: rest)
      emit (encodeRune r.1) (unquoteAux fuel (rest.drop (r.2 - 1)))

/-- The string literal at the head of the input: the Go string it stands for
and the input after it. -/
def readString : List Byte → Option (GoString × List Byte)
  | [] => none
  | q :: rest => if q.val = 0x22 then unquoteAux rest.length rest else none

/-- A decimal digit. -/
def isDigit (b : Byte) : Bool := 0x30 ≤ b.val && b.val ≤ 0x39

/-- The value of the digits at the head of the input, continuing `acc`, and
the input after them. -/
def readDigits : List Byte → Nat → Nat × List Byte
  | [], acc => (acc, [])
  | b :: rest, acc =>
    if isDigit b then readDigits rest (acc * 10 + (b.val - 0x30)) else (acc, b :: rest)

/-- The digits of a JSON number: `0`, or a digit from 1 to 9 and more
digits. -/
def readNat : List Byte → Option (Nat × List Byte)
  | [] => none
  | b :: rest =>
    if b.val = 0x30 then
      match rest with
      | [] => some (0, [])
      | d :: _ => if isDigit d then none else some (0, rest)
    else if isDigit b then some (readDigits rest (b.val - 0x30))
    else none

/-- The JSON number at the head of the input read into an `int64`: a number
with a fraction or an exponent, or outside the range of `int64`, is an
error. -/
def readInt (input : List Byte) : Option (Int × List Byte) :=
  let signed : Option (Int × List Byte) :=
    match input with
    | [] => none
    | b :: rest =>
      if b.val = 0x2D then (readNat rest).map (fun p => (-(p.1 : Int), p.2))
      else (readNat input).map (fun p => ((p.1 : Int), p.2))
  match signed with
  | none => none
  | some (n, rest) =>
    if n < -9223372036854775808 ∨ 9223372036854775807 < n then none
    else
      match rest with
      | c :: _ => if c.val = 0x2E ∨ c.val = 0x65 ∨ c.val = 0x45 then none else some (n, rest)
      | [] => some (n, rest)

/-- The input after white space and the byte `c`, if `c` is the next token. -/
def expect (c : Byte) (input : List Byte) : Option (List Byte) :=
  match skipSpace input with
  | [] => none
  | b :: rest => if b = c then some rest else none

/-- The input after white space, the member name `key` and a colon. -/
def readKey (key : GoString) (input : List Byte) : Option (List Byte) :=
  match readString (skipSpace input) with
  | none => none
  | some (k, rest) => if k = key then expect 0x3A rest else none

/-- The JSON object at the head of the input, read into a `FileInfo`, and the
input after it. -/
def readFileInfo (input : List Byte) : Option (FileInfo × List Byte) := do
  let r0 ← expect 0x7B input
  let r1 ← readKey (ascii "Name") r0
  let (name, r2) ← readString (skipSpace r1)
  let r3 ← expect 0x2C r2
  let r4 ← readKey (ascii "Size") r3
  let (size, r5) ← readInt (skipSpace r4)
  let r6 ← expect 0x2C r5
  let r7 ← readKey (ascii "Hash") r6
  let (hash, r8) ← readString (skipSpace r7)
  let r9 ← expect 0x7D r8
  pure (⟨name, size, hash⟩, r9)

/-- The call `dec.Decode(&req)` of `sendCmd` on a stream that will deliver
`input`: the request and the input left, or the error (also when the stream
ends). -/
def decodeFileInfo (input : List Byte) : Except Err (FileInfo × List Byte) :=
  match readFileInfo input with
  | none => .error .decode
  | some r => .ok r

/-- The elements of a JSON array after its opening bracket, up to the closing
bracket; `fuel` bounds the number of elements. -/
def readElems : Nat → List Byte → Option (List FileInfo × List Byte)
  | 0, _ => none
  | fuel + 1, input =>
    match readFileInfo input with
    | none => none
    | some (f, rest) =>
      match skipSpace rest with
      | c :: rest1 =>
        if c.val = 0x2C then (readElems fuel rest1).map (fun p => (f :: p.1, p.2))
        else if c.val = 0x5D then some ([f], rest1)
        else none
      | [] => none

/-- The call `dec.Decode(&available)` of `recvCmd` on a stream that will
deliver `input`: `null` and `[]` give the empty manifest. -/
def decodeManifest (input : List Byte) : Except Err (List FileInfo × List Byte) :=
  match skipSpace input with
  | 0x6E :: 0x75 :: 0x6C :: 0x6C :: rest => .ok ([], rest)
  | 0x5B :: rest =>
    match skipSpace rest with
    | 0x5D :: rest1 => .ok ([], rest1)
    | _ =>
      match readElems rest.length rest with
      | none => .error .decode
      | some r => .ok r
  | _ => .error .decode

/-- The range of `int64`. -/
def isInt64 (n : Int) : Prop := -9223372036854775808 ≤ n ∧ n ≤ 9223372036854775807

instance (n : Int) : Decidable (isInt64 n) := by
  unfold isInt64
  exact inferInstance

/-- A descriptor whose strings are valid UTF-8 and whose size is an `int64`. -/
def FileInfo.wellFormed (f : FileInfo) : Prop :=
  utf8Valid f.Name = true ∧ isInt64 f.Size ∧ utf8Valid f.Hash = true

instance (f : FileInfo) : Decidable f.wellFormed := by
  unfold FileInfo.wellFormed
  exact inferInstance

/-! ## Sender (`sendCmd`), the request loop -/

/-- The request loop of `sendCmd` on a stream that will deliver `input`, after
`out` was written: the bytes written to the stream and the error the handler
returns. `fuel` bounds the number of iterations, each of which decodes at
least one byte; the result is `none` when the bound is reached. -/
def sendLoop (files : List FileInfo) (d : Dir) :
    Nat → List Byte → List Byte → Option (List Byte × Option Err)
  | 0, _, _ => none
  | fuel + 1, input, out =>
    match decodeFileInfo input with
    | .error e => some (out, some e)
    | .ok (req, rest) =>
      match sendOne files d req with
      | .done => some (out, none)
      | .next written => sendLoop files d fuel rest (out ++ written)
      | .fail written e => some (out ++ written, some e)

/-- The command `sendCmd` from the manifest on: `json.Marshal(files)` is
written, then the request loop runs on the stream. -/
def sendCmd (files : List FileInfo) (d : Dir) (input : List Byte) :
    Option (List Byte × Option Err) :=
  sendLoop files d (input.length + 1) input (jsonMarshal files)

/-! ## A session: the receiver's loop against the sender's loop

Both sides block on their reads, so a session is determined by the two
programs. It is run here in lockstep: each time the receiver has written a
message, the sender decodes it and handles it, and the receiver then goes on
with the stream holding what the sender wrote. -/

/-- State of a session. -/
structure Session where
  /-- The receiver; `recv.incoming` holds the bytes the sender wrote that the
  receiver has not read. -/
  recv : Recv
  /-- The bytes the receiver wrote that the sender has not decoded. -/
  pending : List Byte
  /-- The result of the sender's handler once it has returned. -/
  sender : Option (Option Err)
  /-- The requests the sender decoded so far, oldest first. -/
  decoded : List FileInfo
deriving DecidableEq, Repr

/-- One iteration of the request loop of `sendCmd` inside a session: decode a
request from the pending bytes and handle it with `sendOne`. -/
def senderTurn (files : List FileInfo) (d : Dir) (st : Session) : Session :=
  match st.sender with
  | some _ => st
  | none =>
    match decodeFileInfo st.pending with
    | .error e => { st with sender := some (some e) }
    | .ok (req, rest) =>
      let st1 := { st with pending := rest, decoded := st.decoded ++ [req] }
      match sendOne files d req with
      | .done => { st1 with sender := some none }
      | .next written =>
        { st1 with recv := { st1.recv with incoming := st1.recv.incoming ++ written } }
      | .fail written e =>
        { st1 with recv := { st1.recv with incoming := st1.recv.incoming ++ written },
                   sender := some (some e) }

/-- The outer loop of `recvCmd` inside a session, with the receiver's files
`R`, against a sender with the manifest `files` and the directory `d`. For a
descriptor that is not found the request is written, the sender takes its turn,
and the iteration `recvOne` runs on the stream the sender has filled. -/
def sessionLoop (R files : List FileInfo) (d : Dir) :
    List FileInfo → Session → Session × Option Err
  | [], st => (st, none)
  | a :: available, st =>
    if found R a then sessionLoop R files d available st
    else
      let st1 := senderTurn files d { st with pending := st.pending ++ encEncode a }
      match recvOne R st1.recv a with
      | (w, none) => sessionLoop R files d available { st1 with recv := w }
      | (w, some e) => ({ st1 with recv := w }, some e)

/-- A session from the decoded manifest on: the receiver, with the files `R`
and the directory `dir`, runs its loop over `available` and writes the empty
descriptor; the sender has the manifest `files` and the directory `d`. Returns
the final state and the receiver's error. -/
def session (R available files : List FileInfo) (d dir : Dir) : Session × Option Err :=
  match sessionLoop R files d available ⟨⟨dir, [], []⟩, [], none, []⟩ with
  | (st, none) =>
    (senderTurn files d
      { st with recv := { st.recv with sent := st.recv.sent ++ [FileInfo.empty] },
                pending := st.pending ++ encEncode FileInfo.empty }, none)
  | (st, some e) => (st, some e)

/-! ## Theorems -/
/-! ### JSON strings: escaping and unquoting -/

theorem skipSpace_cons (b : Byte) (rest : List Byte) (h : isSpace b = false) :
    skipSpace (b :: rest) = b :: rest := by
  simp [skipSpace, h]

theorem emit_some (out : List Byte) (s : GoString) (rest : List Byte) :
    emit out (some (s, rest)) = some (out ++ s, rest) := rfl

theorem hexVal_hexDigit : ∀ k, k < 16 → hexVal (hexDigit k) = some k := by decide

theorem getu4_hex (w x y z : Nat) (hw : w < 16) (hx : x < 16) (hy : y < 16) (hz : z < 16)
    (tail : List Byte) :
    getu4 (hexDigit w :: hexDigit x :: hexDigit y :: hexDigit z :: tail) =
      some (w * 4096 + x * 256 + y * 16 + z) := by
  simp only [getu4, hexVal_hexDigit w hw, hexVal_hexDigit x hx, hexVal_hexDigit y hy,
    hexVal_hexDigit z hz]

theorem unquoteAux_quote (n : Nat) (rest : List Byte) :
    unquoteAux (n + 1) (0x22 :: rest) = some ([], rest) := rfl

theorem unquoteAux_plain (c : Byte) (n : Nat) (rest : List Byte) (h1 : c.val ≠ 0x22)
    (h2 : c.val ≠ 0x5C) (h3 : 0x20 ≤ c.val) (h4 : c.val < 0x80) :
    unquoteAux (n + 1) (c :: rest) = emit [c] (unquoteAux n rest) := by
  have h3' : ¬ c.val < 0x20 := by omega
  simp only [unquoteAux, if_neg h1, if_neg h2, if_neg h3', if_pos h4]

theorem unquoteAux_esc (e b : Byte) (n : Nat) (rest : List Byte) (he : e.val ≠ 0x75)
    (hu : unescape e = some b) :
    unquoteAux (n + 1) (0x5C :: e :: rest) = emit [b] (unquoteAux n rest) := by
  rw [unquoteAux, if_neg (by decide), if_pos (by decide)]
  simp only [if_neg he, hu]

theorem unquoteAux_u (rr : Nat) (n : Nat) (rest1 : List Byte) (hg : getu4 rest1 = some rr)
    (hns : ¬ (0xD800 ≤ rr ∧ rr ≤ 0xDFFF)) :
    unquoteAux (n + 1) (0x5C :: 0x75 :: rest1) =
      emit (encodeRune rr) (unquoteAux n (rest1.drop 4)) := by
  rw [unquoteAux, if_neg (by decide), if_pos (by decide)]
  simp only [hg]
  rw [if_pos (by decide), if_neg hns]

theorem unquoteAux_multi (c : Byte) (n : Nat) (rest : List Byte) (h : 0x80 ≤ c.val) :
    unquoteAux (n + 1) (c :: rest) =
      emit (encodeRune (decodeRune (c :: rest)).1)
        (unquoteAux n (rest.drop ((decodeRune (c :: rest)).2 - 1))) := by
  have h1 : ¬ c.val = 0x22 := by omega
  have h2 : ¬ c.val = 0x5C := by omega
  have h3 : ¬ c.val < 0x20 := by omega
  have h4 : ¬ c.val < 0x80 := by omega
  simp only [unquoteAux, if_neg h1, if_neg h2, if_neg h3, if_neg h4]

theorem byte_ofNat_val (b : Byte) : (Fin.ofNat b.val : Byte) = b := by
  apply Fin.ext
  show b.val % 256 = b.val
  exact Nat.mod_eq_of_lt b.isLt

theorem byte_eq_of_val (b : Byte) (v : Nat) (hv : v < 256) (h : b.val = v) :
    b = (⟨v, hv⟩ : Byte) := Fin.ext h

theorem encodeRune_ascii (b : Byte) (hb : b.val < 0x80) : encodeRune b.val = [b] := by
  simp only [encodeRune, if_pos hb, byte_ofNat_val]

/-- An ASCII byte is read back as it is from what `appendString` writes for
it. -/
theorem unquoteAux_ascii (b : Byte) (hb : b.val < 0x80) (n : Nat) (tail : List Byte) :
    unquoteAux (n + 1) ((if htmlSafe b then [b] else escapeByte b) ++ tail) =
      emit [b] (unquoteAux n tail) := by
  by_cases hs : htmlSafe b = true
  · rw [if_pos hs]
    simp only [htmlSafe, Bool.and_eq_true, decide_eq_true_eq, ne_eq] at hs
    exact unquoteAux_plain b n tail (by omega) (by omega) (by omega) hb
  · rw [if_neg hs]
    have hcases : b.val < 0x20 ∨ b.val = 0x22 ∨ b.val = 0x26 ∨ b.val = 0x3C ∨ b.val = 0x3E ∨
        b.val = 0x5C := by
      simp only [htmlSafe, Bool.and_eq_true, decide_eq_true_eq, ne_eq] at hs
      omega
    unfold escapeByte
    split_ifs with h1 h2 h3 h4 h5 h6
    · refine unquoteAux_esc b b n tail (by omega) ?_
      rcases h1 with h1 | h1 <;> simp [unescape, h1]
    · rw [byte_eq_of_val b 8 (by decide) h2]; rfl
    · rw [byte_eq_of_val b 12 (by decide) h3]; rfl
    · rw [byte_eq_of_val b 10 (by decide) h4]; rfl
    · rw [byte_eq_of_val b 13 (by decide) h5]; rfl
    · rw [byte_eq_of_val b 9 (by decide) h6]; rfl
    · have hg := getu4_hex 0 0 (b.val / 16) (b.val % 16) (by decide) (by decide)
        (by omega) (by omega) tail
      have hv : 0 * 4096 + 0 * 256 + b.val / 16 * 16 + b.val % 16 = b.val := by omega
      rw [hv] at hg
      have := unquoteAux_u b.val n _ hg (by omega)
      rw [encodeRune_ascii b hb] at this
      exact this

/-! ### UTF-8 -/

theorem byte_ofNat_eq (b : Byte) (v : Nat) (h : v = b.val) : (Fin.ofNat v : Byte) = b := by
  rw [h]
  exact byte_ofNat_val b

/-- A well-formed multi-byte sequence at the head of a string: its bytes, what
`utf8.DecodeRune` returns for it, and that `utf8.AppendRune` gives the bytes
back. -/
theorem decodeRune_multi (b : Byte) (rest : List Byte) (hb : 0x80 ≤ b.val)
    (hv : ¬ ((decodeRune (b :: rest)).1 = runeError ∧ (decodeRune (b :: rest)).2 = 1)) :
    ∃ rune tail, b :: rest = rune ++ tail ∧ (decodeRune (b :: rest)).2 = rune.length ∧
      2 ≤ rune.length ∧ encodeRune (decodeRune (b :: rest)).1 = rune ∧
      (∀ t, decodeRune (rune ++ t) = decodeRune (b :: rest)) ∧
      (∀ c ∈ rune, 0x80 ≤ c.val) := by
  have hb' : ¬ b.val < 0x80 := by omega
  cases rest with
  | nil =>
    simp [decodeRune, hb'] at hv
  | cons b1 rest1 =>
    by_cases h2 : (okLead2 b && isCont b1) = true
    · have hd : ∀ t, decodeRune (b :: b1 :: t) =
          ((b.val - 0xC0) * 64 + (b1.val - 0x80), 2) := by
        intro t
        simp only [decodeRune, if_neg hb', h2, if_true]
      simp only [okLead2, isCont, Bool.and_eq_true, decide_eq_true_eq] at h2
      refine ⟨[b, b1], rest1, rfl, by rw [hd]; rfl, by simp, ?_, fun t => by
        rw [hd rest1]; exact hd t, ?_⟩
      · rw [hd]
        simp only [encodeRune]
        rw [if_neg (by omega), if_pos (by omega)]
        rw [byte_ofNat_eq b _ (by omega), byte_ofNat_eq b1 _ (by omega)]
      · intro c hc
        simp only [List.mem_cons, List.mem_singleton, List.not_mem_nil, or_false] at hc
        rcases hc with rfl | rfl <;> omega
    · cases rest1 with
      | nil =>
        simp [decodeRune, hb', h2] at hv
      | cons b2 rest2 =>
        by_cases h3 : (okLead3 b b1 && isCont b2) = true
        · have hd : ∀ t, decodeRune (b :: b1 :: b2 :: t) =
              ((b.val - 0xE0) * 4096 + (b1.val - 0x80) * 64 + (b2.val - 0x80), 3) := by
            intro t
            simp only [decodeRune, if_neg hb', h2, h3, if_true, Bool.false_eq_true, if_false]
          simp only [okLead3, isCont, Bool.and_eq_true, Bool.or_eq_true,
            decide_eq_true_eq] at h3
          refine ⟨[b, b1, b2], rest2, rfl, by rw [hd]; rfl, by simp, ?_, fun t => by
            rw [hd rest2]; exact hd t, ?_⟩
          · rw [hd]
            simp only [encodeRune]
            rw [if_neg (by omega), if_neg (by omega), if_neg (by omega), if_pos (by omega)]
            rw [byte_ofNat_eq b _ (by omega), byte_ofNat_eq b1 _ (by omega),
              byte_ofNat_eq b2 _ (by omega)]
          · intro c hc
            simp only [List.mem_cons, List.mem_singleton, List.not_mem_nil, or_false] at hc
            rcases hc with rfl | rfl | rfl <;> omega
        · cases rest2 with
          | nil =>
            simp [decodeRune, hb', h2, h3] at hv
          | cons b3 rest3 =>
            by_cases h4 : (okLead4 b b1 && isCont b2 && isCont b3) = true
            · have hd : ∀ t, decodeRune (b :: b1 :: b2 :: b3 :: t) =
                  ((b.val - 0xF0) * 262144 + (b1.val - 0x80) * 4096 +
                    (b2.val - 0x80) * 64 + (b3.val - 0x80), 4) := by
                intro t
                simp only [decodeRune, if_neg hb', h2, h3, h4, if_true, Bool.false_eq_true,
                  if_false]
              simp only [okLead4, isCont, Bool.and_eq_true, Bool.or_eq_true,
                decide_eq_true_eq] at h4
              refine ⟨[b, b1, b2, b3], rest3, rfl, by rw [hd]; rfl, by simp, ?_, fun t => by
                rw [hd rest3]; exact hd t, ?_⟩
              · rw [hd]
                simp only [encodeRune]
                rw [if_neg (by omega), if_neg (by omega), if_neg (by omega),
                  if_neg (by omega)]
                rw [byte_ofNat_eq b _ (by omega), byte_ofNat_eq b1 _ (by omega),
                  byte_ofNat_eq b2 _ (by omega), byte_ofNat_eq b3 _ (by omega)]
              · intro c hc
                simp only [List.mem_cons, List.mem_singleton, List.not_mem_nil,
                  or_false] at hc
                rcases hc with rfl | rfl | rfl | rfl <;> omega
            · simp [decodeRune, hb', h2, h3, h4] at hv

theorem rune_split (b : Byte) (rest rune tl : List Byte) (h : b :: rest = rune ++ tl)
    (hl : 1 ≤ rune.length) :
    rest.drop (rune.length - 1) = tl ∧ (b :: rest).take rune.length = rune ∧
      tl.length < (b :: rest).length ∧ ∃ rune1, rune = b :: rune1 := by
  cases rune with
  | nil => simp at hl
  | cons c rune1 =>
    simp only [List.cons_append, List.cons.injEq] at h
    obtain ⟨rfl, rfl⟩ := h
    refine ⟨by simp, by simp, by simp; omega, rune1, rfl⟩

theorem decodeRune_ascii (b : Byte) (rest : List Byte) (hb : b.val < 0x80) :
    decodeRune (b :: rest) = (b.val, 1) := by
  simp only [decodeRune, if_pos hb]

theorem utf8ValidAux_cons (f : Nat) (b : Byte) (rest : List Byte) :
    utf8ValidAux (f + 1) (b :: rest) =
      if (decodeRune (b :: rest)).1 = runeError ∧ (decodeRune (b :: rest)).2 = 1 then false
      else utf8ValidAux f (rest.drop ((decodeRune (b :: rest)).2 - 1)) := rfl

theorem appendStringAux_cons (f : Nat) (b : Byte) (rest : List Byte) :
    appendStringAux (f + 1) (b :: rest) =
      if b.val < 0x80 then
        (if htmlSafe b then [b] else escapeByte b) ++ appendStringAux f rest
      else if (decodeRune (b :: rest)).1 = runeError ∧ (decodeRune (b :: rest)).2 = 1 then
        [0x5C, 0x75, 0x66, 0x66, 0x66, 0x64] ++ appendStringAux f rest
      else if (decodeRune (b :: rest)).1 = 0x2028 ∨ (decodeRune (b :: rest)).1 = 0x2029 then
        [0x5C, 0x75, 0x32, 0x30, 0x32, hexDigit ((decodeRune (b :: rest)).1 % 16)] ++
          appendStringAux f (rest.drop ((decodeRune (b :: rest)).2 - 1))
      else (b :: rest).take (decodeRune (b :: rest)).2 ++
          appendStringAux f (rest.drop ((decodeRune (b :: rest)).2 - 1)) := rfl

/-- What `appendString` writes for a valid UTF-8 string is read back as the
string, whatever follows the closing quote. -/
theorem unquoteAux_appendStringAux (k : Nat) : ∀ (s : GoString), s.length ≤ k →
    ∀ (f1 f2 n : Nat) (tail : List Byte), s.length ≤ f1 → s.length ≤ f2 →
      utf8ValidAux f1 s = true → (appendStringAux f2 s).length < n →
      unquoteAux n (appendStringAux f2 s ++ 0x22 :: tail) = some (s, tail) := by
  induction k with
  | zero =>
    intro s hs f1 f2 n tail _ _ _ hn
    have : s = [] := List.length_eq_zero.mp (Nat.le_zero.mp hs)
    subst this
    cases n with
    | zero => simp at hn
    | succ n => cases f2 <;> rfl
  | succ k ih =>
    intro s hs f1 f2 n tail h1 h2 hvalid hn
    cases s with
    | nil =>
      cases n with
      | zero => simp at hn
      | succ n => cases f2 <;> rfl
    | cons b rest =>
      obtain ⟨f1, rfl⟩ : ∃ m, f1 = m + 1 := ⟨f1 - 1, by simp at h1; omega⟩
      obtain ⟨f2, rfl⟩ : ∃ m, f2 = m + 1 := ⟨f2 - 1, by simp at h2; omega⟩
      obtain ⟨n, rfl⟩ : ∃ m, n = m + 1 := ⟨n - 1, by omega⟩
      simp only [List.length_cons] at hs h1 h2
      by_cases hb : b.val < 0x80
      · -- an ASCII byte
        have hdec := decodeRune_ascii b rest hb
        have hne : ¬ ((b.val, 1).1 = runeError ∧ (b.val, 1).2 = 1) := by
          simp only [runeError]; omega
        rw [utf8ValidAux_cons, hdec, if_neg hne] at hvalid
        simp only [Nat.sub_self, List.drop_zero] at hvalid
        simp only [appendStringAux, if_pos hb] at hn ⊢
        rw [List.append_assoc, unquoteAux_ascii b hb]
        have hlen : 1 ≤ (if htmlSafe b then [b] else escapeByte b).length := by
          unfold escapeByte
          split_ifs <;> simp
        rw [ih rest (by omega) f1 f2 n tail (by omega) (by omega) hvalid
          (by simp only [List.length_append] at hn; omega)]
        rfl
      · -- a multi-byte sequence
        have hb' : 0x80 ≤ b.val := by omega
        have hv : ¬ ((decodeRune (b :: rest)).1 = runeError ∧
            (decodeRune (b :: rest)).2 = 1) := by
          intro hbad
          rw [utf8ValidAux_cons, if_pos hbad] at hvalid
          exact absurd hvalid (by decide)
        obtain ⟨rune, tl, hsplit, hsize, hlen2, henc, hdec, hhigh⟩ :=
          decodeRune_multi b rest hb' hv
        obtain ⟨hdrop, htake, htl, rune1, hrune⟩ := rune_split b rest rune tl hsplit (by omega)
        rw [utf8ValidAux_cons, if_neg hv, hsize, hdrop] at hvalid
        have htl2 : tl.length ≤ rest.length := by simp only [List.length_cons] at htl; omega
        have htl' : tl.length ≤ k := by omega
        rw [appendStringAux_cons, if_neg hb, if_neg hv, hsize, hdrop, htake] at hn ⊢
        by_cases hsep : (decodeRune (b :: rest)).1 = 0x2028 ∨ (decodeRune (b :: rest)).1 = 0x2029
        · rw [if_pos hsep] at hn ⊢
          have hg := getu4_hex 2 0 2 ((decodeRune (b :: rest)).1 % 16) (by decide) (by decide)
            (by decide) (by omega) (appendStringAux f2 tl ++ 0x22 :: tail)
          have hval : 2 * 4096 + 0 * 256 + 2 * 16 + (decodeRune (b :: rest)).1 % 16 =
              (decodeRune (b :: rest)).1 := by omega
          rw [hval] at hg
          have hstep := unquoteAux_u (decodeRune (b :: rest)).1 n _ hg (by omega)
          rw [henc] at hstep
          have hshape : ([0x5C, 0x75, 0x32, 0x30, 0x32,
              hexDigit ((decodeRune (b :: rest)).1 % 16)] : List Byte) ++
              appendStringAux f2 tl ++ 0x22 :: tail =
              0x5C :: 0x75 :: hexDigit 2 :: hexDigit 0 :: hexDigit 2 ::
                hexDigit ((decodeRune (b :: rest)).1 % 16) ::
                (appendStringAux f2 tl ++ 0x22 :: tail) := by
            simp only [List.cons_append, List.nil_append, List.append_assoc]
            rfl
          rw [hshape, hstep]
          simp only [List.drop_succ_cons, List.drop_zero]
          rw [ih tl htl' f1 f2 n tail (by omega) (by omega) hvalid
            (by simp only [List.length_append, List.length_cons, List.length_nil] at hn; omega),
            emit_some, ← hsplit]
        · rw [if_neg hsep] at hn ⊢
          subst hrune
          simp only [List.cons_append, List.append_assoc]
          rw [unquoteAux_multi b n _ hb']
          have hd2 := hdec (appendStringAux f2 tl ++ 0x22 :: tail)
          simp only [List.cons_append] at hd2
          rw [hd2, henc, hsize]
          simp only [List.length_cons, Nat.add_sub_cancel, List.drop_left']
          rw [ih tl htl' f1 f2 n tail (by omega) (by omega) hvalid
            (by simp only [List.length_append, List.length_cons] at hn; omega),
            emit_some, ← hsplit]

/-- Reading back the literal `appendString` writes for a valid UTF-8 string. -/
theorem readString_appendString (s : GoString) (hs : utf8Valid s = true) (tail : List Byte) :
    readString (appendString s ++ tail) = some (s, tail) := by
  have h := unquoteAux_appendStringAux s.length s (le_refl _) s.length s.length
    ((appendStringAux s.length s ++ 0x22 :: tail).length) tail (le_refl _) (le_refl _) hs
    (by simp)
  simp only [appendString, List.cons_append, List.append_assoc, readString]
  rw [if_pos (by decide)]
  exact h

/-! ### JSON numbers -/

theorem readDigits_append (l rest : List Byte) (acc : Nat)
    (hl : ∀ b ∈ l, isDigit b = true) :
    readDigits (l ++ rest) acc =
      readDigits rest (l.foldl (fun a b => a * 10 + (b.val - 0x30)) acc) := by
  induction l generalizing acc with
  | nil => rfl
  | cons b l ih =>
    have hb : isDigit b = true := hl b (List.mem_cons_self _ _)
    simp only [List.cons_append, readDigits, hb, if_true, List.foldl_cons]
    exact ih _ (fun c hc => hl c (List.mem_cons_of_mem _ hc))

theorem decimalAux_succ (fuel n : Nat) :
    decimalAux (fuel + 1) n =
      if n < 10 then [Fin.ofNat (48 + n)]
      else decimalAux fuel (n / 10) ++ [Fin.ofNat (48 + n % 10)] := rfl

theorem digit_val (d : Nat) (hd : d < 10) : ((Fin.ofNat (48 + d) : Byte)).val = 48 + d := by
  show (48 + d) % 256 = 48 + d
  omega

/-- The digits `strconv` writes for `n` are decimal digits with value `n`, the
first of them not `0` unless `n` is. -/
theorem decimalAux_spec (fuel : Nat) : ∀ n, n < fuel →
    (∀ b ∈ decimalAux fuel n, isDigit b = true) ∧
    (decimalAux fuel n).foldl (fun a b => a * 10 + (b.val - 0x30)) 0 = n ∧
    ∃ d tl, decimalAux fuel n = d :: tl ∧ (0 < n → d.val ≠ 0x30) ∧ (n = 0 → tl = []) ∧
      isDigit d = true := by
  induction fuel with
  | zero => intro n hn; omega
  | succ fuel ih =>
    intro n hn
    rw [decimalAux_succ]
    by_cases h10 : n < 10
    · rw [if_pos h10]
      have hv := digit_val n h10
      refine ⟨?_, ?_, _, [], rfl, ?_, fun _ => rfl, ?_⟩
      · intro b hb
        rw [List.mem_singleton] at hb
        subst hb
        simp only [isDigit, hv, Bool.and_eq_true, decide_eq_true_eq]
        omega
      · simp only [List.foldl_cons, List.foldl_nil, hv]
        omega
      · intro hpos
        rw [hv]
        omega
      · simp only [isDigit, hv, Bool.and_eq_true, decide_eq_true_eq]
        omega
    · rw [if_neg h10]
      have hlt : n / 10 < fuel := by omega
      obtain ⟨hdig, hval, d, tl, hshape, hd, _, hdd⟩ := ih (n / 10) hlt
      have hv := digit_val (n % 10) (by omega)
      refine ⟨?_, ?_, d, tl ++ [Fin.ofNat (48 + n % 10)], ?_, ?_, ?_, hdd⟩
      · intro b hb
        rw [List.mem_append, List.mem_singleton] at hb
        rcases hb with hb | hb
        · exact hdig b hb
        · subst hb
          simp only [isDigit, hv, Bool.and_eq_true, decide_eq_true_eq]
          omega
      · rw [List.foldl_append, hval]
        simp only [List.foldl_cons, List.foldl_nil, hv]
        omega
      · rw [hshape]; rfl
      · intro _
        exact hd (by omega)
      · intro h0
        omega

/-- Reading back the digits written for a natural number, before a comma. -/
theorem readNat_decimalAux (n : Nat) (tail : List Byte) :
    readNat (decimalAux (n + 1) n ++ 0x2C :: tail) = some (n, 0x2C :: tail) := by
  obtain ⟨hdig, hval, d, tl, hshape, hd, h0, hdd⟩ := decimalAux_spec (n + 1) n (by omega)
  have hall := readDigits_append (decimalAux (n + 1) n) (0x2C :: tail) 0 hdig
  rw [hval] at hall
  have hstop : readDigits (0x2C :: tail) n = (n, 0x2C :: tail) := rfl
  rw [hstop, hshape] at hall
  simp only [List.cons_append, readDigits, hdd, if_true, Nat.zero_mul, Nat.zero_add] at hall
  rw [hshape]
  simp only [List.cons_append, readNat]
  by_cases hn : n = 0
  · subst hn
    have htl := h0 rfl
    subst htl
    have hdv : d.val = 0x30 := by
      have h1 : decimalAux 1 0 = [Fin.ofNat 48] := rfl
      rw [h1] at hshape
      simp only [List.cons.injEq, and_true] at hshape
      rw [← hshape]
      rfl
    rw [if_pos hdv]
    rfl
  · rw [if_neg (hd (by omega)), if_pos hdd]
    exact congrArg some hall

/-- Reading back the number written for an `int64`, before a comma. -/
theorem readInt_appendInt (n : Int) (hn : isInt64 n) (tail : List Byte) :
    readInt (appendInt n ++ 0x2C :: tail) = some (n, 0x2C :: tail) := by
  obtain ⟨_, _, d, tl, hshape, _, _, hdd⟩ :=
    decimalAux_spec (n.natAbs + 1) n.natAbs (by omega)
  have hnat := readNat_decimalAux n.natAbs tail
  unfold isInt64 at hn
  have hrange : ¬ (n < -9223372036854775808 ∨ 9223372036854775807 < n) := by omega
  unfold appendInt
  by_cases hneg : n < 0
  · rw [if_pos hneg]
    have habs : -((n.natAbs : Nat) : Int) = n := by omega
    simp only [readInt, List.cons_append]
    rw [if_pos (by decide), hnat]
    simp only [Option.map_some', habs, if_neg hrange]
    rw [if_neg (by decide)]
  · rw [if_neg hneg]
    have habs : ((n.natAbs : Nat) : Int) = n := by omega
    have hd2 : ¬ d.val = 0x2D := by
      simp only [isDigit, Bool.and_eq_true, decide_eq_true_eq] at hdd
      omega
    have hshape2 : decimalAux (n.natAbs + 1) n.natAbs ++ 0x2C :: tail =
        d :: (tl ++ 0x2C :: tail) := by rw [hshape]; rfl
    simp only [readInt]
    rw [hshape2]
    simp only [if_neg hd2]
    rw [← hshape2, hnat]
    simp only [Option.map_some', habs, if_neg hrange]
    rw [if_neg (by decide)]

/-! ### JSON objects and arrays -/

theorem expect_cons (c : Byte) (tail : List Byte) (h : isSpace c = false) :
    expect c (c :: tail) = some tail := by
  simp only [expect, skipSpace_cons c tail h, if_true]

theorem skipSpace_appendString (s : GoString) (tail : List Byte) :
    skipSpace (appendString s ++ tail) = appendString s ++ tail :=
  skipSpace_cons 0x22 _ (by decide)

theorem readKey_appendString (key : GoString) (hk : utf8Valid key = true) (tail : List Byte) :
    readKey key (appendString key ++ 0x3A :: tail) = some tail := by
  simp only [readKey, skipSpace_appendString, readString_appendString key hk, if_true]
  exact expect_cons 0x3A tail (by decide)

theorem encodeFileInfo_append (f : FileInfo) (rest : List Byte) :
    encodeFileInfo f ++ rest =
      0x7B :: (appendString (ascii "Name") ++ 0x3A :: (appendString f.Name ++ 0x2C ::
        (appendString (ascii "Size") ++ 0x3A :: (appendInt f.Size ++ 0x2C ::
          (appendString (ascii "Hash") ++ 0x3A :: (appendString f.Hash ++ 0x7D :: rest)))))) := by
  have h1 : ascii "\x7b\"Name\":" = 0x7B :: (appendString (ascii "Name") ++ [0x3A]) := by decide
  have h2 : ascii ",\"Size\":" = 0x2C :: (appendString (ascii "Size") ++ [0x3A]) := by decide
  have h3 : ascii ",\"Hash\":" = 0x2C :: (appendString (ascii "Hash") ++ [0x3A]) := by decide
  have h4 : ascii "\x7d" = [0x7D] := by decide
  simp only [encodeFileInfo, h1, h2, h3, h4, List.append_assoc, List.cons_append,
    List.nil_append]

theorem appendInt_head (n : Int) : ∃ c tl, appendInt n = c :: tl ∧ isSpace c = false := by
  unfold appendInt
  by_cases hneg : n < 0
  · rw [if_pos hneg]
    exact ⟨0x2D, _, rfl, by decide⟩
  · rw [if_neg hneg]
    obtain ⟨_, _, d, tl, hshape, _, _, hdd⟩ :=
      decimalAux_spec (n.natAbs + 1) n.natAbs (by omega)
    refine ⟨d, tl, hshape, ?_⟩
    simp only [isDigit, Bool.and_eq_true, decide_eq_true_eq] at hdd
    simp only [isSpace, Bool.or_eq_false_iff, decide_eq_false_iff_not]
    omega

/-- Reading back the object written for a descriptor, whatever follows it. -/
theorem readFileInfo_encodeFileInfo (f : FileInfo) (hf : f.wellFormed) (rest : List Byte) :
    readFileInfo (encodeFileInfo f ++ rest) = some (f, rest) := by
  obtain ⟨hname, hsize, hhash⟩ := hf
  rw [encodeFileInfo_append]
  simp only [readFileInfo, bind, Option.bind, expect_cons 0x7B _ (by decide),
    readKey_appendString _ (by decide : utf8Valid (ascii "Name") = true),
    skipSpace_appendString, readString_appendString f.Name hname,
    expect_cons 0x2C _ (by decide),
    readKey_appendString _ (by decide : utf8Valid (ascii "Size") = true)]
  have hsk : skipSpace (appendInt f.Size ++ 0x2C ::
      (appendString (ascii "Hash") ++ 0x3A :: (appendString f.Hash ++ 0x7D :: rest))) =
      appendInt f.Size ++ 0x2C ::
      (appendString (ascii "Hash") ++ 0x3A :: (appendString f.Hash ++ 0x7D :: rest)) := by
    obtain ⟨c, tl, hc, hsp⟩ := appendInt_head f.Size
    rw [hc]
    exact skipSpace_cons c _ hsp
  simp only [hsk, readInt_appendInt f.Size hsize, expect_cons 0x2C _ (by decide),
    readKey_appendString _ (by decide : utf8Valid (ascii "Hash") = true),
    skipSpace_appendString, readString_appendString f.Hash hhash,
    expect_cons 0x7D _ (by decide)]
  rfl

theorem encodeFileInfo_ne_nil (f : FileInfo) : 1 ≤ (encodeFileInfo f).length := by
  have h := encodeFileInfo_append f []
  rw [List.append_nil] at h
  rw [h]
  simp

theorem encodeElems_length (files : List FileInfo) :
    files.length ≤ (encodeElems files).length := by
  induction files with
  | nil => simp
  | cons f files ih =>
    cases files with
    | nil => simpa [encodeElems] using encodeFileInfo_ne_nil f
    | cons g files =>
      simp only [encodeElems, List.length_append, List.length_cons] at ih ⊢
      omega

/-- Reading back the elements written for a non-empty slice. -/
theorem readElems_encodeElems (files : List FileInfo) (hne : files ≠ [])
    (hwf : ∀ f ∈ files, f.wellFormed) (fuel : Nat) (hfuel : files.length ≤ fuel)
    (rest : List Byte) :
    readElems fuel (encodeElems files ++ 0x5D :: rest) = some (files, rest) := by
  induction files generalizing fuel with
  | nil => exact absurd rfl hne
  | cons f files ih =>
    obtain ⟨fuel, rfl⟩ : ∃ m, fuel = m + 1 := ⟨fuel - 1, by simp at hfuel; omega⟩
    have hf : f.wellFormed := hwf f (List.mem_cons_self _ _)
    cases files with
    | nil =>
      simp only [encodeElems, readElems, readFileInfo_encodeFileInfo f hf,
        skipSpace_cons 0x5D rest (by decide)]
      rfl
    | cons g files =>
      have hrec := ih (by simp) (fun x hx => hwf x (List.mem_cons_of_mem _ hx)) fuel
        (by simp only [List.length_cons] at hfuel ⊢; omega)
      simp only [encodeElems, List.append_assoc, List.cons_append, readElems,
        readFileInfo_encodeFileInfo f hf, skipSpace_cons 0x2C _ (by decide)]
      rw [if_pos (by decide)]
      simp only [encodeElems, List.append_assoc, List.cons_append] at hrec
      rw [hrec]
      rfl

/-- Decoding what `json.Marshal` writes for a manifest of well-formed
descriptors, whatever follows it on the stream. -/
theorem decodeManifest_jsonMarshal (files : List FileInfo) (hwf : ∀ f ∈ files, f.wellFormed)
    (rest : List Byte) :
    decodeManifest (jsonMarshal files ++ rest) = .ok (files, rest) := by
  cases files with
  | nil => rfl
  | cons f files =>
    have hlen := encodeElems_length (f :: files)
    have hread := readElems_encodeElems (f :: files) (by simp) hwf
      (encodeElems (f :: files) ++ 0x5D :: rest).length
      (by simp only [List.length_append]; omega) rest
    obtain ⟨tl, htl⟩ : ∃ tl, encodeElems (f :: files) ++ 0x5D :: rest = 0x7B :: tl := by
      cases files with
      | nil => exact ⟨_, by simp only [encodeElems]; rw [encodeFileInfo_append]⟩
      | cons g files =>
        exact ⟨_, by simp only [encodeElems, List.append_assoc]; rw [encodeFileInfo_append]⟩
    simp only [jsonMarshal, List.cons_append, List.append_assoc, List.nil_append, decodeManifest,
      skipSpace_cons 0x5B _ (by decide)]
    rw [hread, htl]
    simp only [skipSpace_cons 0x7B _ (by decide)]


/-! ### Receiver: the decision of the inner loop -/

theorem found_of_no_name (R : List FileInfo) (s : FileInfo)
    (h : ∀ r ∈ R, r.Name ≠ s.Name) : found R s = false := by
  induction R with
  | nil => rfl
  | cons f R ih =>
    have hf : f.Name ≠ s.Name := h f (List.mem_cons_self _ _)
    have hR : ∀ r ∈ R, r.Name ≠ s.Name := fun r hr => h r (List.mem_cons_of_mem _ hr)
    simp [found, hf, ih hR]

theorem found_of_first (R : List FileInfo) (s r : FileInfo)
    (h : R.find? (fun r => r.Name = s.Name) = some r) :
    found R s = decide (r.Hash = s.Hash) ∧ hashWarned R s = decide (r.Hash ≠ s.Hash) := by
  induction R with
  | nil => simp at h
  | cons f R ih =>
    by_cases hf : f.Name = s.Name
    · simp [List.find?, hf] at h
      subst h
      by_cases hh : f.Hash = s.Hash <;> simp [found, hashWarned, hf, hh]
    · simp [List.find?, hf] at h
      simp [found, hashWarned, hf, ih h]

/-! ### Receiver: what a run writes -/

theorem transfer_sent (w : Recv) (a : FileInfo) : (transfer w a).1.sent = w.sent := rfl

theorem fetch_sent (w : Recv) (a : FileInfo) : (fetch w a).1.sent = w.sent := by
  unfold fetch
  cases osCreate w.dir a.Name <;> rfl

theorem fetch_ok_name (w : Recv) (a : FileInfo) (h : (fetch w a).2 = none) :
    a.Name ≠ [] := by
  intro hn
  simp [fetch, osCreate, hn] at h

theorem recvOne_sent (R : List FileInfo) (w : Recv) (a : FileInfo) :
    (recvOne R w a).1.sent = w.sent ++ (if found R a then [] else [a]) := by
  unfold recvOne
  by_cases hf : found R a = true
  · simp [hf]
  · simp [hf, fetch_sent]

theorem recvOne_ok_name (R : List FileInfo) (w : Recv) (a : FileInfo)
    (h : (recvOne R w a).2 = none) (hf : found R a = false) : a.Name ≠ [] := by
  unfold recvOne at h
  simp [hf] at h
  exact fetch_ok_name _ _ h

theorem recvLoop_cons (R : List FileInfo) (a : FileInfo) (S : List FileInfo) (w : Recv) :
    recvLoop R (a :: S) w =
      if (recvOne R w a).2 = none then recvLoop R S (recvOne R w a).1
      else recvOne R w a := by
  rcases h : recvOne R w a with ⟨w1, _ | e⟩ <;> simp [recvLoop, h]

/-- In every run of the loop the requests written form a prefix of the offered
descriptors that are not found, in their order. -/
theorem recvLoop_sent_prefix (R S : List FileInfo) (w : Recv) :
    ∃ reqs, (recvLoop R S w).1.sent = w.sent ++ reqs ∧
      reqs <+: S.filter (fun s => !found R s) := by
  induction S generalizing w with
  | nil => exact ⟨[], by simp [recvLoop], by simp⟩
  | cons a S ih =>
    rw [recvLoop_cons]
    by_cases hok : (recvOne R w a).2 = none
    · obtain ⟨reqs, h1, h2⟩ := ih (recvOne R w a).1
      rw [if_pos hok, h1, recvOne_sent]
      by_cases hf : found R a = true
      · exact ⟨reqs, by simp [hf], by simpa [List.filter, hf] using h2⟩
      · refine ⟨a :: reqs, by simp [hf], ?_⟩
        have hf2 : found R a = false := by simpa using hf
        simpa [List.filter, hf2] using (List.prefix_cons_inj a).mpr h2
    · rw [if_neg hok, recvOne_sent]
      by_cases hf : found R a = true
      · exact ⟨[], by simp [hf], List.nil_prefix⟩
      · have hf2 : found R a = false := by simpa using hf
        refine ⟨[a], by simp [hf], ?_⟩
        simp only [List.filter, hf2, Bool.not_false]
        exact (List.prefix_cons_inj a).mpr List.nil_prefix

/-- A run of the loop that ends without error has written exactly the offered
descriptors that are not found, and each of them has a non-empty name. -/
theorem recvLoop_ok (R S : List FileInfo) (w : Recv) (h : (recvLoop R S w).2 = none) :
    (recvLoop R S w).1.sent = w.sent ++ S.filter (fun s => !found R s) ∧
      ∀ a ∈ S.filter (fun s => !found R s), a.Name ≠ [] := by
  induction S generalizing w with
  | nil => simp [recvLoop]
  | cons a S ih =>
    rw [recvLoop_cons] at h ⊢
    by_cases hok : (recvOne R w a).2 = none
    · rw [if_pos hok] at h ⊢
      obtain ⟨h1, h2⟩ := ih _ h
      rw [h1, recvOne_sent]
      by_cases hf : found R a = true
      · simp [List.filter, hf]
        simpa using h2
      · have hf2 : found R a = false := by simpa using hf
        simp only [List.filter, hf2, Bool.not_false, List.mem_cons]
        refine ⟨by simp, ?_⟩
        rintro b (rfl | hb)
        · exact recvOne_ok_name R w b hok hf2
        · exact h2 b hb
    · rw [if_neg hok] at h
      exact absurd h hok

theorem recvCmd_eq (R S : List FileInfo) (w : Recv) :
    recvCmd R S w =
      if (recvLoop R S w).2 = none then
        ({ (recvLoop R S w).1 with sent := (recvLoop R S w).1.sent ++ [FileInfo.empty] }, none)
      else recvLoop R S w := by
  rcases h : recvLoop R S w with ⟨w1, _ | e⟩ <;> simp [recvCmd, h]

theorem recvCmd_ok_iff (R S : List FileInfo) (w : Recv) :
    (recvCmd R S w).2 = none ↔ (recvLoop R S w).2 = none := by
  rw [recvCmd_eq]
  by_cases h : (recvLoop R S w).2 = none <;> simp [h]

theorem Dir.read_write (d : Dir) (name : GoString) (c : List Byte) :
    (d.write name c).read name = some c := by
  simp [Dir.read, Dir.write, List.find?]

theorem ioCopyN_ok_iff (src : List Byte) (n : Int) (hn : 0 ≤ n) :
    (ioCopyN src n).2.2 = none ↔ n ≤ src.length := by
  unfold ioCopyN
  have hlen : ((src.take n.toNat).length : Int) = min n src.length := by
    rw [List.length_take]
    omega
  dsimp only
  by_cases h : n ≤ src.length
  · have h0 : ((src.take n.toNat).length : Int) = n := by omega
    rw [if_pos h0]
    simp [h]
  · have h1 : ¬ ((src.take n.toNat).length : Int) = n := by omega
    have h2 : ((src.take n.toNat).length : Int) < n := by omega
    rw [if_neg h1, if_pos h2]
    simp [h]

theorem ioCopyN_short (src : List Byte) (n : Int) (h : (src.length : Int) < n) :
    (ioCopyN src n).2.2 = some Err.eof := by
  unfold ioCopyN
  have hlen : ((src.take n.toNat).length : Int) = min n src.length := by
    rw [List.length_take]
    omega
  have h1 : ¬ ((src.take n.toNat).length : Int) = n := by omega
  have h2 : ((src.take n.toNat).length : Int) < n := by omega
  dsimp only
  rw [if_neg h1, if_pos h2]

theorem ioCopyN_data (src : List Byte) (n : Int) :
    (ioCopyN src n).1 = src.take n.toNat ∧ (ioCopyN src n).2.1 = src.drop n.toNat := by
  unfold ioCopyN
  dsimp only
  split_ifs <;> simp

/-! ### Sender: one request -/

theorem inSet_iff_mem (files : List FileInfo) (req : FileInfo) :
    inSet files req = true ↔ req ∈ files := by
  induction files with
  | nil => simp [inSet]
  | cons f files ih =>
    by_cases hf : f = req
    · simp [inSet, hf]
    · have hne : ¬ req = f := fun h => hf h.symm
      simp [inSet, hf, hne, ih]

theorem serve_ne_done (d : Dir) (req : FileInfo) : serve d req ≠ Step.done := by
  unfold serve
  cases osOpen d req.Name with
  | error e => simp
  | ok c => dsimp only; split_ifs <;> simp

theorem serve_ne_notInSet (d : Dir) (req : FileInfo) (out : List Byte) :
    serve d req ≠ Step.fail out Err.notInSet := by
  unfold serve osOpen
  cases d.read req.Name with
  | none => simp
  | some c => dsimp only; split_ifs <;> simp

/-! ### The claims on the receiver -/

/-- C1, as stated, fails: with `R = [{a, 10, H1}]` and `S = [{a, 10, H2}]` the
receiver writes the request `{a, 10, H2}`, so it is not true that a descriptor
whose name `R` holds with another hash is never requested. -/
theorem C1_counterexample :
    ¬ (∀ (R S : List FileInfo) (s : FileInfo) (w : Recv), s ∈ S →
        (∃ r ∈ R, r.Name = s.Name ∧ r.Hash ≠ s.Hash) →
        s ∉ (recvCmd R S w).1.sent) := by
  intro h
  exact h [⟨ascii "a", 10, ascii "H1"⟩] [⟨ascii "a", 10, ascii "H2"⟩]
    ⟨ascii "a", 10, ascii "H2"⟩ ⟨[], [0, 1, 2, 3, 4, 5, 6, 7, 8, 9], []⟩
    (by decide) (by decide) (by decide)

/-- C1, amended: when the first descriptor of `R` that carries the name of `s`
has another hash, the inner loop prints the warning and leaves `found` false,
and the iteration for `s` writes the request `s`. -/
theorem C1_hash_mismatch_is_requested (R : List FileInfo) (s r : FileInfo) (w : Recv)
    (hfirst : R.find? (fun f => f.Name = s.Name) = some r) (hhash : r.Hash ≠ s.Hash) :
    hashWarned R s = true ∧ found R s = false ∧
      (recvOne R w s).1.sent = w.sent ++ [s] := by
  obtain ⟨h1, h2⟩ := found_of_first R s r hfirst
  have hf : found R s = false := by simp [h1, hhash]
  refine ⟨by simp [h2, hhash], hf, ?_⟩
  rw [recvOne_sent, hf]
  simp

theorem C1_hash_mismatch_is_requested_witness :
    hashWarned [⟨ascii "a", 10, ascii "H1"⟩] ⟨ascii "a", 10, ascii "H2"⟩ = true ∧
      found [⟨ascii "a", 10, ascii "H1"⟩] ⟨ascii "a", 10, ascii "H2"⟩ = false ∧
      (recvOne [⟨ascii "a", 10, ascii "H1"⟩] ⟨[], [], []⟩
          ⟨ascii "a", 10, ascii "H2"⟩).1.sent = [] ++ [⟨ascii "a", 10, ascii "H2"⟩] :=
  C1_hash_mismatch_is_requested [⟨ascii "a", 10, ascii "H1"⟩] ⟨ascii "a", 10, ascii "H2"⟩
    ⟨ascii "a", 10, ascii "H1"⟩ ⟨[], [], []⟩ (by decide) (by decide)

/-- C2: with `R` scanned in order and its first descriptor named like `s`
deciding, (a) a descriptor whose name `R` does not carry is not found, (b) a
descriptor whose first namesake in `R` has its hash is found, and a run of the
loop that ends without error writes exactly the descriptors of `S` that are not
found, each as it is and in the order of `S`; (c) in every run the requests
written are a subsequence of `S`. -/
theorem C2_diff_requests (R S : List FileInfo) (w : Recv) :
    (∀ s, (∀ r ∈ R, r.Name ≠ s.Name) → found R s = false) ∧
    (∀ s r, R.find? (fun f => f.Name = s.Name) = some r → r.Hash = s.Hash →
        found R s = true) ∧
    ((recvLoop R S w).2 = none →
        (recvLoop R S w).1.sent = w.sent ++ S.filter (fun s => !found R s)) ∧
    (∃ reqs, (recvLoop R S w).1.sent = w.sent ++ reqs ∧
        reqs <+: S.filter (fun s => !found R s) ∧ reqs.Sublist S) := by
  refine ⟨fun s h => found_of_no_name R s h, ?_, fun h => (recvLoop_ok R S w h).1, ?_⟩
  · intro s r hfirst hhash
    rw [(found_of_first R s r hfirst).1]
    simp [hhash]
  · obtain ⟨reqs, h1, h2⟩ := recvLoop_sent_prefix R S w
    exact ⟨reqs, h1, h2, h2.sublist.trans (List.filter_sublist _)⟩

/-- C2 on the manifests of the first end-to-end scenario: only `f2` is
requested. -/
theorem C2_diff_requests_witness :
    (recvLoop [⟨ascii "f1", 100, ascii "Ha"⟩]
        [⟨ascii "f1", 100, ascii "Ha"⟩, ⟨ascii "f2", 2, ascii "Hb"⟩]
        ⟨[], [7, 8], []⟩).1.sent = [] ++ [⟨ascii "f2", 2, ascii "Hb"⟩] :=
  (C2_diff_requests [⟨ascii "f1", 100, ascii "Ha"⟩]
    [⟨ascii "f1", 100, ascii "Ha"⟩, ⟨ascii "f2", 2, ascii "Hb"⟩]
    ⟨[], [7, 8], []⟩).2.2.1 (by decide)

/-- C6: for a requested descriptor with a non-negative size, the transfer into
the created file succeeds exactly when the stream still delivers at least
`Size` bytes; then the file `Name` holds the first `Size` bytes of the stream
and the stream keeps all later bytes; on a shorter stream the transfer fails
with `io.EOF`, and so does the command. -/
theorem C6_receiver_byte_count (w : Recv) (a : FileInfo) (hsize : 0 ≤ a.Size) :
    ((transfer w a).2 = none ↔ a.Size ≤ w.incoming.length) ∧
    (a.Size ≤ w.incoming.length →
        (transfer w a).1.dir.read a.Name = some (w.incoming.take a.Size.toNat) ∧
        ((w.incoming.take a.Size.toNat).length : Int) = a.Size ∧
        (transfer w a).1.incoming = w.incoming.drop a.Size.toNat ∧
        w.incoming = w.incoming.take a.Size.toNat ++ (transfer w a).1.incoming) ∧
    ((w.incoming.length : Int) < a.Size →
        (transfer w a).2 = some Err.eof ∧
        ∀ R S, found R a = false → a.Name ≠ [] →
          (recvCmd R (a :: S) w).2 = some Err.eof) := by
  refine ⟨ioCopyN_ok_iff w.incoming a.Size hsize, ?_, ?_⟩
  · intro h
    have hd := ioCopyN_data w.incoming a.Size
    refine ⟨?_, ?_, ?_, ?_⟩
    · simp only [transfer, hd.1]
      exact Dir.read_write _ _ _
    · rw [List.length_take]
      omega
    · simp only [transfer, hd.2]
    · simp only [transfer, hd.2]
      exact (List.take_append_drop _ _).symm
  · intro h
    have hshort : (transfer w a).2 = some Err.eof := ioCopyN_short w.incoming a.Size h
    refine ⟨hshort, ?_⟩
    intro R S hf hn
    have hone : (recvOne R w a).2 = some Err.eof := by
      simp only [recvOne, hf, fetch, osCreate, hn, Bool.false_eq_true, if_false]
      exact ioCopyN_short w.incoming a.Size h
    rw [recvCmd_eq, recvLoop_cons]
    simp [hone]

theorem C6_receiver_byte_count_witness :
    ((transfer ⟨[], [1, 2, 3], []⟩ ⟨ascii "f", 2, ascii "h"⟩).2 = none ↔
        (2 : Int) ≤ ([1, 2, 3] : List Byte).length) ∧
      (transfer ⟨[], [1, 2, 3], []⟩ ⟨ascii "f", 2, ascii "h"⟩).1.incoming = [3] :=
  ⟨(C6_receiver_byte_count ⟨[], [1, 2, 3], []⟩ ⟨ascii "f", 2, ascii "h"⟩ (by decide)).1,
    by decide⟩

/-- C8: a run of the receiver that ends without error has written the
descriptors of the sender manifest that are not found, in the manifest's
order, and then one empty descriptor as its last message; none of the requests
is the empty descriptor, and the loop itself writes no other message. For an
empty manifest the run writes only the empty descriptor, creates no file and
reads no byte. -/
theorem C8_receiver_termination (R S : List FileInfo) (w : Recv)
    (hok : (recvCmd R S w).2 = none) :
    (recvCmd R S w).1.sent =
        w.sent ++ S.filter (fun s => !found R s) ++ [FileInfo.empty] ∧
    (recvLoop R S w).1.sent = w.sent ++ S.filter (fun s => !found R s) ∧
    (∀ a ∈ S.filter (fun s => !found R s), a ≠ FileInfo.empty) ∧
    recvCmd R [] w = ({ w with sent := w.sent ++ [FileInfo.empty] }, none) := by
  have hloop : (recvLoop R S w).2 = none := (recvCmd_ok_iff R S w).mp hok
  obtain ⟨h1, h2⟩ := recvLoop_ok R S w hloop
  refine ⟨?_, h1, ?_, rfl⟩
  · rw [recvCmd_eq, if_pos hloop]
    simp [h1]
  · intro a ha hempty
    exact h2 a ha (by rw [hempty]; rfl)

theorem C8_receiver_termination_witness :
    (recvCmd [⟨ascii "f1", 100, ascii "Ha"⟩]
        [⟨ascii "f1", 100, ascii "Ha"⟩, ⟨ascii "f2", 2, ascii "Hb"⟩]
        ⟨[], [7, 8], []⟩).1.sent =
      [] ++ [⟨ascii "f1", 100, ascii "Ha"⟩, ⟨ascii "f2", 2, ascii "Hb"⟩].filter
        (fun s => !found [⟨ascii "f1", 100, ascii "Ha"⟩] s) ++ [FileInfo.empty] :=
  (C8_receiver_termination [⟨ascii "f1", 100, ascii "Ha"⟩]
    [⟨ascii "f1", 100, ascii "Ha"⟩, ⟨ascii "f2", 2, ascii "Hb"⟩]
    ⟨[], [7, 8], []⟩ (by decide)).1

/-! ### The claims on the sender, one decoded request -/

/-- C3, as stated, fails: the request `{"", 7, "Ha"}` is not the empty
descriptor and no entry of the manifest `[{f1, 100, Ha}]` equals it, and still
the handler does not return the unknown-request error: it returns `nil`, the
name being empty. -/
theorem C3_counterexample :
    ¬ (∀ (files : List FileInfo) (d : Dir) (req : FileInfo), req ≠ FileInfo.empty →
        (¬ ∃ f ∈ files, f.Name = req.Name ∧ f.Size = req.Size ∧ f.Hash = req.Hash) →
        sendOne files d req = Step.fail [] Err.notInSet) := by
  intro h
  have h1 := h [⟨ascii "f1", 100, ascii "Ha"⟩] [(ascii "f1", [1, 2])] ⟨[], 7, ascii "Ha"⟩
    (by decide) (by
      rintro ⟨f, hf, hname, _, _⟩
      rw [List.mem_singleton] at hf
      subst hf
      exact absurd hname (by decide))
  have h2 : sendOne [⟨ascii "f1", 100, ascii "Ha"⟩] [(ascii "f1", [1, 2])]
      ⟨[], 7, ascii "Ha"⟩ = Step.done := by decide
  rw [h2] at h1
  exact absurd h1 (by decide)

/-- C3, amended: for a decoded request with a non-empty name, the lookup
succeeds exactly when an entry of the manifest has its name, size and hash;
then the request is served, and otherwise the handler returns the
unknown-request error with no byte written to the stream, which ends the
loop. Serving never returns that error. -/
theorem C3_sender_lookup_exact (files : List FileInfo) (d : Dir) (req : FileInfo)
    (hname : req.Name ≠ []) :
    (inSet files req = true ↔
        ∃ f ∈ files, f.Name = req.Name ∧ f.Size = req.Size ∧ f.Hash = req.Hash) ∧
    (inSet files req = true → sendOne files d req = serve d req) ∧
    (inSet files req = false → sendOne files d req = Step.fail [] Err.notInSet) ∧
    (∀ out, serve d req ≠ Step.fail out Err.notInSet) ∧
    (inSet files req = false → ∀ fuel input rest out,
        decodeFileInfo input = .ok (req, rest) →
        sendLoop files d (fuel + 1) input out = some (out, some Err.notInSet)) := by
  refine ⟨?_, ?_, ?_, serve_ne_notInSet d req, ?_⟩
  · rw [inSet_iff_mem]
    constructor
    · intro h
      exact ⟨req, h, rfl, rfl, rfl⟩
    · rintro ⟨f, hf, h1, h2, h3⟩
      have : f = req := by
        cases f; cases req; simp_all
      exact this ▸ hf
  · intro h
    simp [sendOne, hname, h]
  · intro h
    simp [sendOne, hname, h]
  · intro h fuel input rest out hdec
    have hstep : sendOne files d req = Step.fail [] Err.notInSet := by
      simp [sendOne, hname, h]
    simp only [sendLoop, hdec, hstep, List.append_nil]

/-- C3 on a request whose name and hash match the manifest but whose size does
not. -/
theorem C3_sender_lookup_exact_witness :
    sendOne [⟨ascii "f1", 100, ascii "Ha"⟩] [(ascii "f1", [1, 2])]
      ⟨ascii "f1", 99, ascii "Ha"⟩ = Step.fail [] Err.notInSet :=
  (C3_sender_lookup_exact [⟨ascii "f1", 100, ascii "Ha"⟩] [(ascii "f1", [1, 2])]
    ⟨ascii "f1", 99, ascii "Ha"⟩ (by decide)).2.2.1 (by decide)

/-- C4, as stated, fails: the request `{"", 5, "x"}` is not the empty
descriptor, and the handler still returns `nil` for it without a lookup. -/
theorem C4_counterexample :
    ¬ (∀ (files : List FileInfo) (d : Dir) (req : FileInfo),
        sendOne files d req = Step.done ↔ req = FileInfo.empty) := by
  intro h
  have h1 := (h [] [] ⟨[], 5, ascii "x"⟩).mp (by decide)
  exact absurd h1 (by decide)

/-- C4, amended: the handler ends the session successfully exactly when the
name of the decoded request is empty, whatever its size and hash (so for the
empty descriptor too), and the loop then returns `nil` with nothing more
written; every request with another name is looked up in the manifest. -/
theorem C4_sender_sentinel_is_empty_name (files : List FileInfo) (d : Dir)
    (req : FileInfo) :
    (sendOne files d req = Step.done ↔ req.Name = []) ∧
    sendOne files d FileInfo.empty = Step.done ∧
    (req.Name ≠ [] →
        sendOne files d req =
          if inSet files req then serve d req else Step.fail [] Err.notInSet) ∧
    (req.Name = [] → ∀ fuel input rest out, decodeFileInfo input = .ok (req, rest) →
        sendLoop files d (fuel + 1) input out = some (out, none)) := by
  refine ⟨?_, rfl, ?_, ?_⟩
  · by_cases hname : req.Name = []
    · simp [sendOne, hname]
    · by_cases hin : inSet files req = true
      · simp [sendOne, hname, hin, serve_ne_done]
      · simp [sendOne, hname, hin]
  · intro hname
    by_cases hin : inSet files req = true <;> simp [sendOne, hname, hin]
  · intro hname fuel input rest out hdec
    have hstep : sendOne files d req = Step.done := by simp [sendOne, hname]
    simp only [sendLoop, hdec, hstep]

/-- C7: for a request with a non-empty name that matches a manifest entry, the
step succeeds and the loop goes on exactly when the file could be opened and
the number of bytes copied, the length of the file, is `req.Size`; the bytes
written are then the content of the file, `req.Size` of them, and the loop
decodes the next request; a file of another length gives the byte-count
error, which ends the loop. -/
theorem C7_sender_byte_count (files : List FileInfo) (d : Dir) (req : FileInfo)
    (hname : req.Name ≠ []) (hin : inSet files req = true) :
    ((∃ out, sendOne files d req = Step.next out) ↔
        ∃ content, d.read req.Name = some content ∧ (content.length : Int) = req.Size) ∧
    (∀ out, sendOne files d req = Step.next out →
        d.read req.Name = some out ∧ (out.length : Int) = req.Size) ∧
    (∀ content, d.read req.Name = some content → (content.length : Int) ≠ req.Size →
        sendOne files d req = Step.fail content Err.wrongCount ∧
        ∀ fuel input rest out, decodeFileInfo input = .ok (req, rest) →
          sendLoop files d (fuel + 1) input out =
            some (out ++ content, some Err.wrongCount)) ∧
    (∀ written fuel input rest out, sendOne files d req = Step.next written →
        decodeFileInfo input = .ok (req, rest) →
        sendLoop files d (fuel + 1) input out =
          sendLoop files d fuel rest (out ++ written)) := by
  have hs : sendOne files d req = serve d req := by simp [sendOne, hname, hin]
  refine ⟨?_, ?_, ?_, ?_⟩
  · rw [hs]
    unfold serve osOpen
    cases hr : d.read req.Name with
    | none => simp
    | some c => by_cases hlen : (c.length : Int) = req.Size <;> simp [hlen]
  · rw [hs]
    unfold serve osOpen
    cases hr : d.read req.Name with
    | none => simp
    | some c => by_cases hlen : (c.length : Int) = req.Size <;> simp [hlen]
  · intro content hfile hlen
    have hstep : sendOne files d req = Step.fail content Err.wrongCount := by
      rw [hs]
      simp [serve, osOpen, hfile, hlen]
    refine ⟨hstep, ?_⟩
    intro fuel input rest out hdec
    simp only [sendLoop, hdec, hstep]
  · intro written fuel input rest out hstep hdec
    simp only [sendLoop, hdec, hstep]

theorem C7_sender_byte_count_witness :
    sendOne [⟨ascii "f", 2, ascii "h"⟩] [(ascii "f", [1, 2])]
        ⟨ascii "f", 2, ascii "h"⟩ = Step.next [1, 2] ∧
      sendOne [⟨ascii "f", 2, ascii "h"⟩] [(ascii "f", [1, 2, 3])]
        ⟨ascii "f", 2, ascii "h"⟩ = Step.fail [1, 2, 3] Err.wrongCount :=
  ⟨by decide,
    ((C7_sender_byte_count [⟨ascii "f", 2, ascii "h"⟩] [(ascii "f", [1, 2, 3])]
      ⟨ascii "f", 2, ascii "h"⟩ (by decide) (by decide)).2.2.1 [1, 2, 3] (by decide)
      (by decide)).1⟩

/-! ### The claims on the codec -/

/-- C10, as stated, fails: for the manifest with the one descriptor named by
the byte `0xFF` (not valid UTF-8), `json.Marshal` writes the name as the escape
of U+FFFD, and decoding gives the name `EF BF BD`, not the original. -/
theorem C10_counterexample :
    ¬ (∀ (files : List FileInfo), (∀ f ∈ files, isInt64 f.Size) →
        decodeManifest (jsonMarshal files) = .ok (files, [])) := by
  intro h
  have h1 := h [⟨[0xFF], 0, []⟩] (by decide)
  have h2 : decodeManifest (jsonMarshal [⟨[0xFF], 0, []⟩]) =
      .ok ([⟨[0xEF, 0xBF, 0xBD], 0, []⟩], []) := by decide
  rw [h2] at h1
  exact absurd h1 (by decide)

/-- C10, amended: for every manifest whose names and hashes are valid UTF-8
(and whose sizes are `int64` values), decoding what the sender writes gives
the manifest back, element by element and in order, and leaves what follows on
the stream; for every such descriptor, and for the empty descriptor, decoding
what the receiver writes gives the descriptor back and leaves the newline and
what follows. -/
theorem C10_codec_round_trip (files : List FileInfo) (f : FileInfo) (rest : List Byte)
    (hfiles : ∀ g ∈ files, g.wellFormed) (hf : f.wellFormed) :
    decodeManifest (jsonMarshal files ++ rest) = .ok (files, rest) ∧
    decodeFileInfo (encEncode f ++ rest) = .ok (f, 0x0A :: rest) ∧
    decodeFileInfo (encEncode FileInfo.empty ++ rest) = .ok (FileInfo.empty, 0x0A :: rest) := by
  have hone : ∀ g : FileInfo, g.wellFormed →
      decodeFileInfo (encEncode g ++ rest) = .ok (g, 0x0A :: rest) := by
    intro g hg
    simp only [encEncode, List.append_assoc, List.cons_append, List.nil_append, decodeFileInfo,
      readFileInfo_encodeFileInfo g hg]
  exact ⟨decodeManifest_jsonMarshal files hfiles rest, hone f hf,
    hone FileInfo.empty (by decide)⟩

theorem C10_codec_round_trip_witness :
    decodeManifest (jsonMarshal [⟨ascii "f1", 100, ascii "Ha"⟩, ⟨ascii "f<2>", -5, [0xC3, 0xA9]⟩]
        ++ [1, 2]) =
      .ok ([⟨ascii "f1", 100, ascii "Ha"⟩, ⟨ascii "f<2>", -5, [0xC3, 0xA9]⟩], [1, 2]) ∧
    decodeFileInfo (encEncode ⟨ascii "f2", 50, ascii "Hb"⟩ ++ [1, 2]) =
      .ok (⟨ascii "f2", 50, ascii "Hb"⟩, 0x0A :: [1, 2]) ∧
    decodeFileInfo (encEncode FileInfo.empty ++ [1, 2]) =
      .ok (FileInfo.empty, 0x0A :: [1, 2]) :=
  C10_codec_round_trip [⟨ascii "f1", 100, ascii "Ha"⟩, ⟨ascii "f<2>", -5, [0xC3, 0xA9]⟩]
    ⟨ascii "f2", 50, ascii "Hb"⟩ [1, 2] (by decide) (by decide)

/-! ### The sender's loop -/

theorem sendLoop_next (files : List FileInfo) (d : Dir) (fuel : Nat) (input out : List Byte)
    (req : FileInfo) (rest written : List Byte)
    (hdec : decodeFileInfo input = .ok (req, rest))
    (hstep : sendOne files d req = Step.next written) :
    sendLoop files d (fuel + 1) input out = sendLoop files d fuel rest (out ++ written) := by
  simp only [sendLoop, hdec, hstep]

/-- C9: a request equal to a manifest entry with a non-empty name and size 0
whose file is empty is not taken for the end of the session: the lookup finds
it, the step writes no byte and passes the count check, and the loop goes on
to decode the next request from what follows on the stream. -/
theorem C9_zero_size_served (files : List FileInfo) (dir : Dir) (d : FileInfo)
    (hmem : d ∈ files) (hname : d.Name ≠ []) (hsize : d.Size = 0)
    (hfile : dir.read d.Name = some []) :
    d ≠ FileInfo.empty ∧ sendOne files dir d ≠ Step.done ∧ inSet files d = true ∧
    sendOne files dir d = Step.next [] ∧
    ∀ fuel input rest out, decodeFileInfo input = .ok (d, rest) →
      sendLoop files dir (fuel + 1) input out = sendLoop files dir fuel rest out := by
  have hin : inSet files d = true := (inSet_iff_mem files d).mpr hmem
  have hstep : sendOne files dir d = Step.next [] := by
    simp [sendOne, hname, hin, serve, osOpen, hfile, hsize]
  refine ⟨?_, ?_, hin, hstep, ?_⟩
  · intro h
    exact hname (by rw [h]; rfl)
  · rw [hstep]
    simp
  · intro fuel input rest out hdec
    rw [sendLoop_next files dir fuel input out d rest [] hdec hstep, List.append_nil]

theorem C9_zero_size_served_witness :
    sendOne [⟨ascii "z", 0, ascii "e3"⟩] [(ascii "z", [])] ⟨ascii "z", 0, ascii "e3"⟩ =
      Step.next [] :=
  (C9_zero_size_served [⟨ascii "z", 0, ascii "e3"⟩] [(ascii "z", [])]
    ⟨ascii "z", 0, ascii "e3"⟩ (by decide) (by decide) rfl (by decide)).2.2.2.1

/-! ### A session -/

theorem find?_filter_ne (d : Dir) (n m : GoString) (h : m ≠ n) :
    (d.filter (fun e => e.1 ≠ n)).find? (fun e => e.1 = m) = d.find? (fun e => e.1 = m) := by
  induction d with
  | nil => rfl
  | cons e d ih =>
    rw [List.filter_cons]
    by_cases he : e.1 = n
    · have hem : ¬ e.1 = m := by rw [he]; exact fun x => h x.symm
      have h1 : decide (e.1 ≠ n) = false := by simp [he]
      have h2 : decide (e.1 = m) = false := by simp [hem]
      rw [h1, List.find?_cons, h2]
      exact ih
    · have h1 : decide (e.1 ≠ n) = true := by simp [he]
      rw [h1]
      simp only [if_true, List.find?_cons]
      rw [ih]

theorem Dir.read_write_ne (d : Dir) (n m : GoString) (c : List Byte) (h : m ≠ n) :
    (d.write n c).read m = d.read m := by
  have hnm' : ¬ n = m := fun e => h e.symm
  have hnm : decide (n = m) = false := decide_eq_false hnm'
  unfold Dir.read Dir.write
  rw [List.find?_cons]
  simp only [hnm]
  rw [find?_filter_ne d n m h]

theorem ioCopyN_exact (c : List Byte) : ioCopyN c (c.length : Int) = (c, [], none) := by
  simp [ioCopyN]

theorem readFileInfo_newline (x : List Byte) :
    readFileInfo (0x0A :: x) = readFileInfo x := by
  have h : expect 0x7B (0x0A :: x) = expect 0x7B x := rfl
  simp only [readFileInfo, h]

/-- Inside a session the sender decodes the request the receiver has just
written, whether or not the newline of the last message is still pending. -/
theorem decodeFileInfo_pending (a : FileInfo) (ha : a.wellFormed) (pending : List Byte)
    (hp : pending = [] ∨ pending = [0x0A]) :
    decodeFileInfo (pending ++ encEncode a) = .ok (a, [0x0A]) := by
  have h := readFileInfo_encodeFileInfo a ha [0x0A]
  rcases hp with rfl | rfl
  · simp only [List.nil_append, encEncode, decodeFileInfo, h]
  · simp only [List.cons_append, List.nil_append, encEncode, decodeFileInfo,
      readFileInfo_newline, h]

/-- The sender's turn on a request for a file it holds with the declared
length: the file's bytes are put on the stream and the loop goes on. -/
theorem senderTurn_serves (S : List FileInfo) (dS : Dir) (st : Session) (a : FileInfo)
    (c : List Byte) (hmem : a ∈ S) (hname : a.Name ≠ []) (ha : a.wellFormed)
    (hfile : dS.read a.Name = some c) (hlen : (c.length : Int) = a.Size)
    (hsender : st.sender = none) (hp : st.pending = [] ∨ st.pending = [0x0A]) :
    senderTurn S dS { st with pending := st.pending ++ encEncode a } =
      { st with pending := [0x0A], decoded := st.decoded ++ [a],
                recv := { st.recv with incoming := st.recv.incoming ++ c } } := by
  have hin : inSet S a = true := (inSet_iff_mem S a).mpr hmem
  have hstep : sendOne S dS a = Step.next c := by
    simp [sendOne, hname, hin, serve, osOpen, hfile, hlen]
  simp only [senderTurn, hsender, decodeFileInfo_pending a ha st.pending hp, hstep]

/-- The receiver's iteration for a descriptor that is not found, on a stream
holding exactly the bytes of the file. -/
theorem recvOne_fetches (R : List FileInfo) (w : Recv) (a : FileInfo) (c : List Byte)
    (hfound : found R a = false) (hname : a.Name ≠ []) (hlen : (c.length : Int) = a.Size)
    (hin : w.incoming = c) :
    recvOne R w a =
      ({ dir := (w.dir.write a.Name []).write a.Name c, incoming := [],
         sent := w.sent ++ [a] }, none) := by
  simp only [recvOne, hfound, fetch, osCreate, hname, transfer, hin, ← hlen, ioCopyN_exact,
    Bool.false_eq_true, if_false]

/-- The sender's turn on the empty descriptor: the handler returns `nil`. -/
theorem senderTurn_done (S : List FileInfo) (dS : Dir) (st : Session)
    (hsender : st.sender = none) (hp : st.pending = [] ∨ st.pending = [0x0A]) :
    senderTurn S dS { st with pending := st.pending ++ encEncode FileInfo.empty } =
      { st with pending := [0x0A], decoded := st.decoded ++ [FileInfo.empty],
                sender := some none } := by
  have hstep : sendOne S dS FileInfo.empty = Step.done := rfl
  simp only [senderTurn, hsender,
    decodeFileInfo_pending FileInfo.empty (by decide) st.pending hp, hstep]

theorem sessionLoop_cons_found (R S : List FileInfo) (dS : Dir) (a : FileInfo)
    (available : List FileInfo) (st : Session) (hf : found R a = true) :
    sessionLoop R S dS (a :: available) st = sessionLoop R S dS available st := by
  simp only [sessionLoop, hf, if_true]

theorem sessionLoop_cons_fetch (R S : List FileInfo) (dS : Dir) (a : FileInfo)
    (available : List FileInfo) (st st1 : Session) (w : Recv) (hf : found R a = false)
    (h1 : senderTurn S dS { st with pending := st.pending ++ encEncode a } = st1)
    (h2 : recvOne R st1.recv a = (w, none)) :
    sessionLoop R S dS (a :: available) st =
      sessionLoop R S dS available { st1 with recv := w } := by
  simp only [sessionLoop, hf, h1, h2, Bool.false_eq_true, if_false]

/-- The loop of a session over descriptors of the sender's manifest, when the
sender holds every file with the declared length: no side fails, every
descriptor that is not found is requested, decoded by the sender and stored
with the sender's bytes, and the other files of the receiver are untouched. -/
theorem sessionLoop_ok (R S : List FileInfo) (dS : Dir)
    (hnames : ∀ s ∈ S, s.Name ≠ []) (hwf : ∀ s ∈ S, s.wellFormed)
    (hfiles : ∀ s ∈ S, ∃ c, dS.read s.Name = some c ∧ (c.length : Int) = s.Size) :
    ∀ (available : List FileInfo) (st : Session),
      (∀ a ∈ available, a ∈ S) → (available.map (fun a => a.Name)).Nodup →
      st.sender = none → (st.pending = [] ∨ st.pending = [0x0A]) → st.recv.incoming = [] →
      ∃ st', sessionLoop R S dS available st = (st', none) ∧ st'.sender = none ∧
        (st'.pending = [] ∨ st'.pending = [0x0A]) ∧ st'.recv.incoming = [] ∧
        st'.recv.sent = st.recv.sent ++ available.filter (fun s => !found R s) ∧
        st'.decoded = st.decoded ++ available.filter (fun s => !found R s) ∧
        (∀ s ∈ available.filter (fun s => !found R s),
          st'.recv.dir.read s.Name = dS.read s.Name) ∧
        (∀ name, (∀ a ∈ available, a.Name ≠ name) →
          st'.recv.dir.read name = st.recv.dir.read name) := by
  intro available
  induction available with
  | nil =>
    intro st _ _ hs hp hi
    exact ⟨st, rfl, hs, hp, hi, by simp, by simp, by simp, fun _ _ => rfl⟩
  | cons a rest ih =>
    intro st hmem hnodup hs hp hi
    have hmem' : ∀ x ∈ rest, x ∈ S := fun x hx => hmem x (List.mem_cons_of_mem _ hx)
    rw [List.map_cons, List.nodup_cons] at hnodup
    obtain ⟨hfresh, hnodup'⟩ := hnodup
    by_cases hf : found R a = true
    · obtain ⟨st', h1, h2, h3, h4, h5, h6, h7, h8⟩ := ih st hmem' hnodup' hs hp hi
      refine ⟨st', by rw [sessionLoop_cons_found R S dS a rest st hf]; exact h1, h2, h3, h4,
        ?_, ?_, ?_, ?_⟩
      · rw [h5]; simp [List.filter, hf]
      · rw [h6]; simp [List.filter, hf]
      · intro s hsmem
        have : s ∈ rest.filter (fun s => !found R s) := by
          simpa [List.filter, hf] using hsmem
        exact h7 s this
      · intro name hname
        exact h8 name (fun x hx => hname x (List.mem_cons_of_mem _ hx))
    · have hf' : found R a = false := by simpa using hf
      have haS : a ∈ S := hmem a (List.mem_cons_self _ _)
      obtain ⟨c, hfile, hlen⟩ := hfiles a haS
      have hturn := senderTurn_serves S dS st a c haS (hnames a haS) (hwf a haS) hfile hlen
        hs hp
      have hrecv := recvOne_fetches R
        { st.recv with incoming := st.recv.incoming ++ c } a c hf' (hnames a haS) hlen
        (by simp [hi])
      have hloop := sessionLoop_cons_fetch R S dS a rest st _ _ hf' hturn hrecv
      obtain ⟨st', h1, h2, h3, h4, h5, h6, h7, h8⟩ :=
        ih { st with pending := [0x0A], decoded := st.decoded ++ [a],
                     recv := { dir := (st.recv.dir.write a.Name []).write a.Name c,
                               incoming := [], sent := st.recv.sent ++ [a] } }
          hmem' hnodup' hs (Or.inr rfl) rfl
      have hkeep : st'.recv.dir.read a.Name = some c := by
        rw [h8 a.Name (fun x hx hxa => hfresh (List.mem_map.mpr ⟨x, hx, hxa⟩))]
        exact Dir.read_write _ _ _
      refine ⟨st', by rw [hloop]; exact h1, h2, h3, h4, ?_, ?_, ?_, ?_⟩
      · rw [h5]; simp [List.filter, hf']
      · rw [h6]; simp [List.filter, hf']
      · intro s hsmem
        have : s = a ∨ s ∈ rest.filter (fun s => !found R s) := by
          simpa [List.filter, hf'] using hsmem
        rcases this with rfl | hsr
        · rw [hkeep, hfile]
        · exact h7 s hsr
      · intro name hname
        rw [h8 name (fun x hx => hname x (List.mem_cons_of_mem _ hx))]
        have hne : name ≠ a.Name := fun e => hname a (List.mem_cons_self _ _) e.symm
        show ((st.recv.dir.write a.Name []).write a.Name c).read name = _
        rw [Dir.read_write_ne _ _ _ _ hne, Dir.read_write_ne _ _ _ _ hne]

/-! ### The two sides of a session, each on the whole stream of the other -/

theorem ioCopyN_head (c tail : List Byte) :
    ioCopyN (c ++ tail) (c.length : Int) = (c, tail, none) := by
  simp [ioCopyN]

theorem recvOne_fetches_head (R : List FileInfo) (w : Recv) (a : FileInfo)
    (c tail : List Byte) (hfound : found R a = false) (hname : a.Name ≠ [])
    (hlen : (c.length : Int) = a.Size) (hin : w.incoming = c ++ tail) :
    recvOne R w a =
      ({ dir := (w.dir.write a.Name []).write a.Name c, incoming := tail,
         sent := w.sent ++ [a] }, none) := by
  simp only [recvOne, hfound, fetch, osCreate, hname, transfer, hin, ← hlen, ioCopyN_head,
    Bool.false_eq_true, if_false]

/-- The receiver's loop alone, on a stream that delivers the files the sender
writes during the session and then `tail`, ends in the receiver's state of
the session, with `tail` left on the stream. -/
theorem recvLoop_eq_session (R S : List FileInfo) (dS : Dir)
    (hnames : ∀ s ∈ S, s.Name ≠ []) (hwf : ∀ s ∈ S, s.wellFormed)
    (hfiles : ∀ s ∈ S, ∃ c, dS.read s.Name = some c ∧ (c.length : Int) = s.Size) :
    ∀ (available : List FileInfo) (st : Session) (tail : List Byte),
      (∀ a ∈ available, a ∈ S) →
      st.sender = none → (st.pending = [] ∨ st.pending = [0x0A]) → st.recv.incoming = [] →
      recvLoop R available
          { st.recv with incoming :=
              ((available.filter (fun s => !found R s)).map
                (fun s => (dS.read s.Name).getD [])).flatten ++ tail } =
        ({ (sessionLoop R S dS available st).1.recv with incoming := tail }, none) := by
  intro available
  induction available with
  | nil =>
    intro st tail _ _ _ _
    simp [recvLoop, sessionLoop]
  | cons a rest ih =>
    intro st tail hmem hs hp hi
    have hmem' : ∀ x ∈ rest, x ∈ S := fun x hx => hmem x (List.mem_cons_of_mem _ hx)
    by_cases hf : found R a = true
    · rw [sessionLoop_cons_found R S dS a rest st hf, recvLoop_cons]
      have hone : ∀ w : Recv, recvOne R w a = (w, none) := by
        intro w; simp [recvOne, hf]
      rw [hone]
      simp only [if_true]
      have := ih st tail hmem' hs hp hi
      simpa [List.filter, hf] using this
    · have hf' : found R a = false := by simpa using hf
      have haS : a ∈ S := hmem a (List.mem_cons_self _ _)
      obtain ⟨c, hfile, hlen⟩ := hfiles a haS
      have hturn := senderTurn_serves S dS st a c haS (hnames a haS) (hwf a haS) hfile hlen
        hs hp
      have hrecv := recvOne_fetches R
        { st.recv with incoming := st.recv.incoming ++ c } a c hf' (hnames a haS) hlen
        (by simp [hi])
      rw [sessionLoop_cons_fetch R S dS a rest st _ _ hf' hturn hrecv, recvLoop_cons]
      have hstream : ((List.filter (fun s => !found R s) (a :: rest)).map
          (fun s => (dS.read s.Name).getD [])).flatten ++ tail =
          c ++ (((rest.filter (fun s => !found R s)).map
            (fun s => (dS.read s.Name).getD [])).flatten ++ tail) := by
        simp [List.filter, hf', hfile]
      rw [hstream]
      rw [recvOne_fetches_head R _ a c _ hf' (hnames a haS) hlen rfl]
      simp only [if_true]
      exact ih { st with pending := [0x0A], decoded := st.decoded ++ [a],
                         recv := { dir := (st.recv.dir.write a.Name []).write a.Name c,
                                   incoming := [], sent := st.recv.sent ++ [a] } }
        tail hmem' hs (Or.inr rfl) rfl

/-- The sender's loop alone, on a stream that delivers the requests of the
session and then the empty descriptor, writes the requested files and returns
`nil`. -/
theorem sendLoop_requests (S : List FileInfo) (dS : Dir) (hnames : ∀ s ∈ S, s.Name ≠ [])
    (hwf : ∀ s ∈ S, s.wellFormed)
    (hfiles : ∀ s ∈ S, ∃ c, dS.read s.Name = some c ∧ (c.length : Int) = s.Size) :
    ∀ (reqs : List FileInfo) (fuel : Nat) (pre out : List Byte),
      (∀ a ∈ reqs, a ∈ S) → reqs.length < fuel → (pre = [] ∨ pre = [0x0A]) →
      sendLoop S dS fuel
          (pre ++ ((reqs.map encEncode).flatten ++ encEncode FileInfo.empty)) out =
        some (out ++ (reqs.map (fun s => (dS.read s.Name).getD [])).flatten, none) := by
  intro reqs
  induction reqs with
  | nil =>
    intro fuel pre out _ hfuel hpre
    obtain ⟨fuel, rfl⟩ : ∃ m, fuel = m + 1 := ⟨fuel - 1, by simp at hfuel; omega⟩
    have hdec := decodeFileInfo_pending FileInfo.empty (by decide) pre hpre
    have hstep : sendOne S dS FileInfo.empty = Step.done := rfl
    simp only [List.map_nil, List.flatten_nil, List.nil_append, List.append_nil, sendLoop, hdec,
      hstep]
  | cons a reqs ih =>
    intro fuel pre out hmem hfuel hpre
    obtain ⟨fuel, rfl⟩ : ∃ m, fuel = m + 1 := ⟨fuel - 1, by simp at hfuel; omega⟩
    have haS : a ∈ S := hmem a (List.mem_cons_self _ _)
    obtain ⟨c, hfile, hlen⟩ := hfiles a haS
    have hin : inSet S a = true := (inSet_iff_mem S a).mpr haS
    have hstep : sendOne S dS a = Step.next c := by
      simp [sendOne, hnames a haS, hin, serve, osOpen, hfile, hlen]
    have hread : ∀ x, readFileInfo (pre ++ (encEncode a ++ x)) = some (a, 0x0A :: x) := by
      intro x
      have h := readFileInfo_encodeFileInfo a (hwf a haS) (0x0A :: x)
      rcases hpre with rfl | rfl
      · simpa [encEncode] using h
      · simpa [encEncode, readFileInfo_newline] using h
    have hdec : decodeFileInfo (pre ++ (((a :: reqs).map encEncode).flatten ++
        encEncode FileInfo.empty)) =
        .ok (a, [0x0A] ++ ((reqs.map encEncode).flatten ++ encEncode FileInfo.empty)) := by
      simp only [List.map_cons, List.flatten_cons, List.append_assoc, decodeFileInfo, hread]
      rfl
    rw [sendLoop_next S dS fuel _ out a _ c hdec hstep]
    rw [ih fuel [0x0A] (out ++ c) (fun x hx => hmem x (List.mem_cons_of_mem _ hx))
      (by simp only [List.length_cons] at hfuel; omega) (Or.inr rfl)]
    simp [hfile]

theorem encEncode_flatten_length (reqs : List FileInfo) :
    reqs.length ≤ ((reqs.map encEncode).flatten).length := by
  induction reqs with
  | nil => simp
  | cons a reqs ih =>
    have h := encodeFileInfo_ne_nil a
    simp only [List.map_cons, List.flatten_cons, List.length_append, List.length_cons, encEncode]
    omega

/-- C5, as stated, fails: the sender manifest `[{"\xFF", 0, ""}]` has one
unique non-empty name and its file has the declared length 0, and still the
session ends with the sender's unknown-request error: the request is written
with the name coerced to U+FFFD, which is not the name in the manifest. -/
theorem C5_counterexample :
    ¬ (∀ (R S : List FileInfo) (dS dir : Dir),
        (S.map (fun s => s.Name)).Nodup → (∀ s ∈ S, s.Name ≠ []) →
        (∀ s ∈ S, ∃ c, dS.read s.Name = some c ∧ (c.length : Int) = s.Size) →
        (session R S S dS dir).2 = none ∧ (session R S S dS dir).1.sender = some none) := by
  intro h
  have h1 := (h [] [⟨[0xFF], 0, []⟩] [([0xFF], [])] [] (by decide) (by decide)
    (by
      intro s hs
      rw [List.mem_singleton] at hs
      subst hs
      exact ⟨[], rfl, rfl⟩)).2
  have h2 : (session [] [⟨[0xFF], 0, []⟩] [⟨[0xFF], 0, []⟩] [([0xFF], [])] []).1.sender =
      some (some Err.notInSet) := by decide
  rw [h2] at h1
  exact absurd h1 (by decide)

/-- C5, amended: for every sender manifest `S` with unique non-empty names,
valid UTF-8 names and hashes (and `int64` sizes) whose files have the declared
lengths, and every receiver manifest `R`, the session ends without error on
both sides; the receiver writes the descriptors of `S` that are not found and
then the empty descriptor, the sender decodes exactly these, each request an
entry of `S`, and returns `nil` on the empty descriptor; every requested file
is stored by the receiver with the sender's bytes, `Size` of them, no byte is
left on the stream, and files with other names are untouched. Each side run
alone on all the other side writes in the session ends as in the session:
`recvCmd` on the files the sender writes, `sendCmd` on the requests and the
empty descriptor. -/
theorem C5_session_end_to_end (R S : List FileInfo) (dS dir : Dir)
    (hnodup : (S.map (fun s => s.Name)).Nodup) (hnames : ∀ s ∈ S, s.Name ≠ [])
    (hwf : ∀ s ∈ S, s.wellFormed)
    (hfiles : ∀ s ∈ S, ∃ c, dS.read s.Name = some c ∧ (c.length : Int) = s.Size) :
    (session R S S dS dir).2 = none ∧
    (session R S S dS dir).1.sender = some none ∧
    (session R S S dS dir).1.recv.sent = S.filter (fun s => !found R s) ++ [FileInfo.empty] ∧
    (session R S S dS dir).1.decoded = S.filter (fun s => !found R s) ++ [FileInfo.empty] ∧
    (∀ s ∈ S.filter (fun s => !found R s), s ∈ S ∧
      ∃ c, (session R S S dS dir).1.recv.dir.read s.Name = some c ∧
        dS.read s.Name = some c ∧ (c.length : Int) = s.Size) ∧
    (session R S S dS dir).1.recv.incoming = [] ∧
    (∀ name, (∀ s ∈ S, s.Name ≠ name) →
      (session R S S dS dir).1.recv.dir.read name = dir.read name) ∧
    recvCmd R S ⟨dir, ((S.filter (fun s => !found R s)).map
        (fun s => (dS.read s.Name).getD [])).flatten, []⟩ =
      ((session R S S dS dir).1.recv, none) ∧
    sendCmd S dS (((S.filter (fun s => !found R s)).map encEncode).flatten ++
        encEncode FileInfo.empty) =
      some (jsonMarshal S ++ ((S.filter (fun s => !found R s)).map
        (fun s => (dS.read s.Name).getD [])).flatten, none) := by
  have hrecv := recvLoop_eq_session R S dS hnames hwf hfiles S ⟨⟨dir, [], []⟩, [], none, []⟩ []
    (fun a ha => ha) rfl (Or.inl rfl) rfl
  have hsend := sendLoop_requests S dS hnames hwf hfiles (S.filter (fun s => !found R s))
    ((((S.filter (fun s => !found R s)).map encEncode).flatten ++
        encEncode FileInfo.empty).length + 1) [] (jsonMarshal S)
    (fun a ha => (List.mem_filter.mp ha).1)
    (by
      have := encEncode_flatten_length (S.filter (fun s => !found R s))
      simp only [List.length_append]
      omega)
    (Or.inl rfl)
  obtain ⟨st', h1, h2, h3, h4, h5, h6, h7, h8⟩ :=
    sessionLoop_ok R S dS hnames hwf hfiles S ⟨⟨dir, [], []⟩, [], none, []⟩
      (fun a ha => ha) hnodup rfl (Or.inl rfl) rfl
  have hs : session R S S dS dir =
      ({ st' with recv := { st'.recv with sent := st'.recv.sent ++ [FileInfo.empty] },
                  pending := [0x0A], decoded := st'.decoded ++ [FileInfo.empty],
                  sender := some none }, none) := by
    simp only [session, h1]
    rw [senderTurn_done S dS
      { st' with recv := { st'.recv with sent := st'.recv.sent ++ [FileInfo.empty] } } h2 h3]
  rw [hs]
  refine ⟨rfl, rfl, by simp [h5], by simp [h6], ?_, h4, h8, ?_, ?_⟩
  · intro s hsmem
    have hsS : s ∈ S := (List.mem_filter.mp hsmem).1
    obtain ⟨c, hfile, hlen⟩ := hfiles s hsS
    exact ⟨hsS, c, by rw [← hfile]; exact h7 s hsmem, hfile, hlen⟩
  · rw [h1] at hrecv
    simp only [List.append_nil] at hrecv
    rw [recvCmd_eq, hrecv]
    simp only [if_true]
    rw [← h4]
  · simpa [sendCmd] using hsend

/-- C5 on the first end-to-end scenario: `S = [{f1,100,Ha},{f2,50,Hb}]` and
`R = [{f1,100,Ha}]`; the only request is `{f2,50,Hb}` and the 50 bytes of the
sender's `f2` are stored as `f2`. -/
theorem C5_session_end_to_end_witness :
    ((session [⟨ascii "f1", 100, ascii "Ha"⟩]
        [⟨ascii "f1", 100, ascii "Ha"⟩, ⟨ascii "f2", 50, ascii "Hb"⟩]
        [⟨ascii "f1", 100, ascii "Ha"⟩, ⟨ascii "f2", 50, ascii "Hb"⟩]
        [(ascii "f1", List.replicate 100 1), (ascii "f2", List.replicate 50 2)]
        [(ascii "f1", List.replicate 100 1)]).2 = none ∧
      (session [⟨ascii "f1", 100, ascii "Ha"⟩]
        [⟨ascii "f1", 100, ascii "Ha"⟩, ⟨ascii "f2", 50, ascii "Hb"⟩]
        [⟨ascii "f1", 100, ascii "Ha"⟩, ⟨ascii "f2", 50, ascii "Hb"⟩]
        [(ascii "f1", List.replicate 100 1), (ascii "f2", List.replicate 50 2)]
        [(ascii "f1", List.replicate 100 1)]).1.sender = some none) ∧
    (session [⟨ascii "f1", 100, ascii "Ha"⟩]
        [⟨ascii "f1", 100, ascii "Ha"⟩, ⟨ascii "f2", 50, ascii "Hb"⟩]
        [⟨ascii "f1", 100, ascii "Ha"⟩, ⟨ascii "f2", 50, ascii "Hb"⟩]
        [(ascii "f1", List.replicate 100 1), (ascii "f2", List.replicate 50 2)]
        [(ascii "f1", List.replicate 100 1)]).1.recv =
      ⟨[(ascii "f2", List.replicate 50 2), (ascii "f1", List.replicate 100 1)], [],
        [⟨ascii "f2", 50, ascii "Hb"⟩, FileInfo.empty]⟩ := by
  have h := C5_session_end_to_end [⟨ascii "f1", 100, ascii "Ha"⟩]
    [⟨ascii "f1", 100, ascii "Ha"⟩, ⟨ascii "f2", 50, ascii "Hb"⟩]
    [(ascii "f1", List.replicate 100 1), (ascii "f2", List.replicate 50 2)]
    [(ascii "f1", List.replicate 100 1)] (by decide) (by decide) (by decide)
    (by
      intro s hs
      simp only [List.mem_cons, List.mem_singleton, List.not_mem_nil, or_false] at hs
      rcases hs with rfl | rfl
      · exact ⟨List.replicate 100 1, rfl, rfl⟩
      · exact ⟨List.replicate 50 2, rfl, rfl⟩)
  exact ⟨⟨h.1, h.2.1⟩, by decide⟩

end Paramshare
